import Mathlib

/-!
Verification of the band-clustering engine of the `berry` repository
(`src/python/clustering_libs.py`), against its natural-language
specification.  Floating-point values are modelled as rationals (ℚ),
NumPy integer arrays as `List (List Int)`, node/k-point identifiers as ℕ.
Each definition is a shallow embedding of the correspondingly named
Python function or code region.
-/

-- Rational arithmetic must evaluate inside the kernel for the concrete
-- runs below; we only lift the irreducibility marker, which changes no
-- definition.
attribute [local semireducible] Rat.add Rat.mul Rat.sub

set_option maxRecDepth 20000

namespace Berry

/-! ### Basic helpers (NumPy-style indexing, updates and reductions)

Division and absolute value are given kernel-computable definitions;
`divQ_eq` and `absQ_eq` prove they are exactly `/` and `|·|` on ℚ. -/

/-- Kernel-computable inverse on ℚ (`q⁻¹ = den / num`). -/
def invQ (q : ℚ) : ℚ := Rat.divInt q.den q.num

/-- Kernel-computable division on ℚ. -/
def divQ (a b : ℚ) : ℚ := a * invQ b

/-- Kernel-computable absolute value on ℚ. -/
def absQ (q : ℚ) : ℚ := if q < 0 then -q else q

theorem invQ_eq (q : ℚ) : invQ q = q⁻¹ := by rw [invQ, Rat.inv_def']

theorem divQ_eq (a b : ℚ) : divQ a b = a / b := by
  rw [divQ, invQ_eq, div_eq_mul_inv]

theorem absQ_eq (q : ℚ) : absQ q = |q| := by
  rw [absQ, abs]
  rcases lt_or_le q 0 with h | h
  · rw [if_pos h]; exact (max_eq_right (by linarith)).symm
  · rw [if_neg (not_lt.mpr h)]; exact (max_eq_left (by linarith)).symm

/-- `l.getD n 0` for rational lists (NumPy 1-D float read, in-range use only). -/
def nthQ (l : List ℚ) (n : ℕ) : ℚ := l.getD n 0

/-- Integer-list read with default `0`. -/
def nthI (l : List Int) (n : ℕ) : Int := l.getD n 0

/-- Natural-list read with default `0`. -/
def nthN (l : List ℕ) (n : ℕ) : ℕ := l.getD n 0

/-- Write position `i` of a list; out-of-range writes are dropped
(all writes performed by the embedded code are in range). -/
def setIdx {α : Type} : List α → ℕ → α → List α
  | [], _, _ => []
  | _ :: xs, 0, v => v :: xs
  | x :: xs, n + 1, v => x :: setIdx xs n v

/-- 2-D read `m[r, c]` with default `d`. -/
def get2 (m : List (List Int)) (r c : ℕ) (d : Int) : Int := (m.getD r []).getD c d

/-- 2-D write `m[r, c] = v`. -/
def set2 : List (List Int) → ℕ → ℕ → Int → List (List Int)
  | [], _, _, _ => []
  | row :: rows, 0, c, v => setIdx row c v :: rows
  | row :: rows, r + 1, c, v => row :: set2 rows r c v

/-- `np.full((r, c), v)`. -/
def mkFull (r c : ℕ) (v : Int) : List (List Int) := List.replicate r (List.replicate c v)

/-- Sum of a rational list. -/
def sumQ (l : List ℚ) : ℚ := l.foldr (· + ·) 0

/-- `np.mean` of a list of rationals (`sum / len`; the empty case is junk,
the embedded code reaching it returns `MISTAKE` exactly as NaN would). -/
def npMean (l : List ℚ) : ℚ := divQ (sumQ l) l.length

/-- Minimum of a rational list (`np.min`; nonempty in all uses). -/
def minQ : List ℚ → ℚ
  | [] => 0
  | [x] => x
  | x :: y :: xs => let m := minQ (y :: xs); if x ≤ m then x else m

/-- Minimum of a natural-number list (`np.min`; nonempty in all uses). -/
def minN : List ℕ → ℕ
  | [] => 0
  | [x] => x
  | x :: y :: xs => let m := minN (y :: xs); if x ≤ m then x else m

/-! ### `evaluate_result` (clustering_libs.py lines 43-80)

Signal from the mean of the realized neighbor dot products. -/

def CORRECT : Int := 5
def POTENTIAL_CORRECT : Int := 4
def POTENTIAL_MISTAKE : Int := 3
def DEGENERATE : Int := 2
def MISTAKE : Int := 1
def NOT_SOLVED : Int := 0

def evaluate_result (values : List ℚ) : Int :=
  let TOL : ℚ := mkRat 9 10
  let TOL_DEG : ℚ := mkRat 8 10
  let TOL_MIN : ℚ := mkRat 2 10
  let value := npMean values
  if value > TOL then CORRECT
  else if value > TOL_DEG then POTENTIAL_CORRECT
  else if value > TOL_MIN ∧ value < TOL_DEG then POTENTIAL_MISTAKE
  else MISTAKE

/-- C3, counterexample: a single realized overlap of exactly 0.8 has mean
exactly 0.8; the claim says the emitted signal is 3 (POTENTIAL_MISTAKE), but
`evaluate_result` falls through its strict `value < 0.8` test and returns
1 (MISTAKE). -/
theorem C3_counterexample :
    evaluate_result [mkRat 4 5] = 1 ∧ (1 : Int) ≠ 3 := by
  constructor
  · decide
  · decide

/-- C3 (amended): with mean m, the emitted signal is 5 if m > 0.9,
4 if 0.8 < m ≤ 0.9, 3 if 0.2 < m < 0.8, and 1 if m ≤ 0.2 **or m = 0.8**
(the third band is strictly open at 0.8, and m = 0.8 falls to MISTAKE). -/
theorem C3_amended (values : List ℚ) :
    (npMean values > 9 / 10 → evaluate_result values = 5) ∧
    (8 / 10 < npMean values ∧ npMean values ≤ 9 / 10 → evaluate_result values = 4) ∧
    (2 / 10 < npMean values ∧ npMean values < 8 / 10 → evaluate_result values = 3) ∧
    (npMean values ≤ 2 / 10 ∨ npMean values = 8 / 10 → evaluate_result values = 1) := by
  unfold evaluate_result
  have e9 : (mkRat 9 10 : ℚ) = 9 / 10 := by norm_num [mkRat]
  have e8 : (mkRat 8 10 : ℚ) = 8 / 10 := by norm_num [mkRat]
  have e2 : (mkRat 2 10 : ℚ) = 2 / 10 := by norm_num [mkRat]
  rw [e9, e8, e2]
  refine ⟨fun h => ?_, fun h => ?_, fun h => ?_, fun h => ?_⟩
  · simp only [if_pos h]; rfl
  · rw [if_neg (by linarith), if_pos (by linarith)]; rfl
  · rw [if_neg (by linarith), if_neg (by linarith), if_pos ⟨h.1, h.2⟩]; rfl
  · rcases h with h | h
    · rw [if_neg (by linarith), if_neg (by linarith), if_neg (by push_neg; intro h2; linarith)]
      rfl
    · rw [if_neg (by rw [h]; norm_num), if_neg (by rw [h]; exact lt_irrefl _),
        if_neg (by rw [h]; norm_num)]
      rfl

/-- Witness for C3: the amended theorem applied at the concrete inputs `[1]`
(mean 1 → signal 5) and `[4/5]` (mean exactly 0.8 → signal 1). -/
theorem C3_amended_witness :
    evaluate_result [1] = 5 ∧ evaluate_result [4 / 5] = 1 := by
  constructor
  · exact (C3_amended [1]).1 (by norm_num [npMean, sumQ, divQ_eq])
  · exact (C3_amended [4 / 5]).2.2.2 (Or.inr (by norm_num [npMean, sumQ, divQ_eq]))

/-! ### `np.argmax` and the merger's sample selection
(clustering_libs.py lines 651-685, `MATERIAL.get_components`)

Each round of the merger loop computes `evaluate_samples[:, 0]` (the best
score of each remaining sample) and pops `samples.pop(np.argmax(...))`.
`np.argmax` returns the first index attaining the maximum, which is the
lowest-numbered sample among ties. -/

/-- Scanning loop of `np.argmax`: `i` is the index of the next element,
`bi`/`bv` the best index and value so far (strict `>` keeps the first). -/
def argmaxGo : List ℚ → ℕ → ℕ → ℚ → ℕ
  | [], _, bi, _ => bi
  | x :: xs, i, bi, bv => if bv < x then argmaxGo xs (i + 1) i x else argmaxGo xs (i + 1) bi bv

/-- `np.argmax` over a 1-D array (0 on the empty array, unused case). -/
def npArgmax : List ℚ → ℕ
  | [] => 0
  | x :: xs => argmaxGo xs 1 0 x

/-- The index popped from `samples` in one merger round (line 674). -/
def mergePickIndex (best_scores : List ℚ) : ℕ := npArgmax best_scores

theorem nthQ_append_left (l l2 : List ℚ) (j : ℕ) (h : j < l.length) :
    nthQ (l ++ l2) j = nthQ l j := by
  induction l generalizing j with
  | nil => exact absurd h (Nat.not_lt_zero j)
  | cons x xs ih =>
    cases j with
    | zero => rfl
    | succ j =>
      simp only [nthQ, List.cons_append, List.getD_cons_succ]
      exact ih j (Nat.lt_of_succ_lt_succ h)

theorem nthQ_append_self (l : List ℚ) (x : ℚ) (l2 : List ℚ) :
    nthQ (l ++ x :: l2) l.length = x := by
  induction l with
  | nil => rfl
  | cons y ys ih => simpa only [nthQ, List.cons_append, List.getD_cons_succ] using ih

theorem argmaxGo_spec (xs : List ℚ) : ∀ (acc : List ℚ) (bi : ℕ) (bv : ℚ),
    bi < acc.length → nthQ acc bi = bv →
    (∀ j, j < acc.length → nthQ acc j ≤ bv) →
    (∀ j, j < bi → nthQ acc j < bv) →
    argmaxGo xs acc.length bi bv < (acc ++ xs).length ∧
      (∀ j, j < (acc ++ xs).length →
        nthQ (acc ++ xs) j ≤ nthQ (acc ++ xs) (argmaxGo xs acc.length bi bv)) ∧
      (∀ j, j < argmaxGo xs acc.length bi bv →
        nthQ (acc ++ xs) j < nthQ (acc ++ xs) (argmaxGo xs acc.length bi bv)) := by
  induction xs with
  | nil =>
    intro acc bi bv hbi hv hle hlt
    simp only [argmaxGo, List.append_nil]
    refine ⟨hbi, ?_, ?_⟩
    · intro j hj; rw [hv]; exact hle j hj
    · intro j hj; rw [hv]; exact hlt j hj
  | cons x xs ih =>
    intro acc bi bv hbi hv hle hlt
    have hsplit : acc ++ x :: xs = (acc ++ [x]) ++ xs := by
      simp [List.append_assoc]
    have hlen : (acc ++ [x]).length = acc.length + 1 := by simp
    have hself : nthQ (acc ++ [x]) acc.length = x := nthQ_append_self acc x []
    by_cases hx : bv < x
    · have h := ih (acc ++ [x]) acc.length x (by simp) hself
        (fun j hj => by
          rw [hlen] at hj
          rcases Nat.lt_succ_iff_lt_or_eq.mp hj with hj' | hj'
          · rw [nthQ_append_left acc [x] j hj']
            exact le_of_lt (lt_of_le_of_lt (hle j hj') hx)
          · rw [hj', hself])
        (fun j hj => by
          rw [nthQ_append_left acc [x] j hj]
          exact lt_of_le_of_lt (hle j hj) hx)
      rw [hlen] at h
      rw [hsplit]
      simpa only [argmaxGo, if_pos hx] using h
    · have h := ih (acc ++ [x]) bi bv
        (by rw [hlen]; exact Nat.lt_succ_of_lt hbi)
        (by rw [nthQ_append_left acc [x] bi hbi]; exact hv)
        (fun j hj => by
          rw [hlen] at hj
          rcases Nat.lt_succ_iff_lt_or_eq.mp hj with hj' | hj'
          · rw [nthQ_append_left acc [x] j hj']
            exact hle j hj'
          · rw [hj', hself]
            exact not_lt.mp hx)
        (fun j hj => by
          rw [nthQ_append_left acc [x] j (lt_trans hj hbi)]
          exact hlt j hj)
      rw [hlen] at h
      rw [hsplit]
      simpa only [argmaxGo, if_neg hx] using h

/-- C8: in each merger round the popped sample is one with the highest best
score over all remaining samples (`np.argmax` over `evaluate_samples[:, 0]`),
and among samples tying at the highest score the one with the lowest index in
the `samples` list (the lowest sample identifier) is selected, so the merge
order is deterministic. -/
theorem C8_merge_selection (scores : List ℚ) (h : scores ≠ []) :
    mergePickIndex scores < scores.length ∧
      (∀ j, j < scores.length → nthQ scores j ≤ nthQ scores (mergePickIndex scores)) ∧
      (∀ j, j < mergePickIndex scores → nthQ scores j < nthQ scores (mergePickIndex scores)) := by
  cases scores with
  | nil => exact absurd rfl h
  | cons x xs =>
    have hs := argmaxGo_spec xs [x] 0 x (by simp) rfl
      (fun j hj => by
        have : j = 0 := Nat.lt_one_iff.mp (by simpa using hj)
        subst this
        exact le_refl x)
      (fun j hj => absurd hj (Nat.not_lt_zero j))
    simpa only [mergePickIndex, npArgmax, List.length_cons, List.singleton_append,
      List.length_singleton] using hs

/-- Witness for C8: on the scores `[1/2, 1, 1]` the popped index is 1 (the
first of the two tied maxima), it is in range, dominates index 0, and the
earlier index 0 is strictly smaller. -/
theorem C8_merge_selection_witness :
    mergePickIndex [mkRat 1 2, 1, 1] < 3 ∧
      nthQ [mkRat 1 2, 1, 1] 0 ≤ nthQ [mkRat 1 2, 1, 1] (mergePickIndex [mkRat 1 2, 1, 1]) ∧
      nthQ [mkRat 1 2, 1, 1] 0 < nthQ [mkRat 1 2, 1, 1] (mergePickIndex [mkRat 1 2, 1, 1]) := by
  have h := C8_merge_selection [mkRat 1 2, 1, 1] (by simp)
  exact ⟨h.1, h.2.1 0 (by decide), h.2.2 0 (by decide)⟩

/-! ### The outer solver's best-result tracking
(clustering_libs.py lines 1021-1043, `MATERIAL.solve`)

After each outer iteration, a prefix count `solved` is computed: bands are
scanned in order, counting while `final_score[bn] >= best_score[bn]` and the
NOT_SOLVED count did not grow; the first failing band stops the scan.  When
`solved >= max_solved` the whole `final_score` array is snapshotted into
`best_score`. -/

/-- `np.sum(m[:, bn] == NOT_SOLVED)`. -/
def notSolvedCol (m : List (List Int)) (bn : ℕ) : ℕ :=
  (m.map fun row => nthI row bn).count 0

/-- The `for bn, score in enumerate(final_score): ... else: break` scan. -/
def solvedCountGo (prev cur : List (List Int)) : List ℚ → List ℚ → ℕ → ℕ
  | f :: fs, b :: bs, bn =>
    if b ≤ f ∧ notSolvedCol cur bn ≤ notSolvedCol prev bn then
      solvedCountGo prev cur fs bs (bn + 1) + 1
    else 0
  | _, _, _ => 0

def solvedCount (final_score best_score : List ℚ) (prev cur : List (List Int)) : ℕ :=
  solvedCountGo prev cur final_score best_score 0

/-- Lines 1032-1043: the snapshot/restore decision for `best_score` and
`max_solved` (the remaining restored arrays are not relevant to C5). -/
def updateBest (final_score best_score : List ℚ) (prev cur : List (List Int))
    (max_solved : ℕ) : List ℚ × ℕ :=
  let s := solvedCount final_score best_score prev cur
  if max_solved ≤ s then (final_score, s) else (best_score, max_solved)

/-- C5, counterexample: with stored `best_score = [1/2, 9/10]`,
`max_solved = 1`, and a new iteration scoring `final_score = [3/5, 3/10]`
(and unchanged NOT_SOLVED counts), the solved prefix is 1 ≥ max_solved, so the
whole array is snapshotted and the stored `best_score[1]` **decreases** from
9/10 to 3/10 — refuting "best_score[b] is non-decreasing for all b". -/
theorem C5_counterexample :
    nthQ (updateBest [mkRat 6 10, mkRat 3 10] [mkRat 5 10, mkRat 9 10]
        [[1, 1]] [[1, 1]] 1).1 1
      < nthQ [mkRat 5 10, mkRat 9 10] 1 := by
  decide

theorem solvedCountGo_prefix (prev cur : List (List Int)) :
    ∀ (fs bs : List ℚ) (bn b : ℕ), b < solvedCountGo prev cur fs bs bn →
      nthQ bs b ≤ nthQ fs b := by
  intro fs
  induction fs with
  | nil => intro bs bn b h; simp [solvedCountGo] at h
  | cons f fs ih =>
    intro bs bn b h
    cases bs with
    | nil => simp [solvedCountGo] at h
    | cons bq bs =>
      by_cases hc : bq ≤ f ∧ notSolvedCol cur bn ≤ notSolvedCol prev bn
      · rw [solvedCountGo, if_pos hc] at h
        cases b with
        | zero => exact hc.1
        | succ b =>
          exact ih bs (bn + 1) b (Nat.lt_of_succ_lt_succ h)
      · rw [solvedCountGo, if_neg hc] at h
        exact absurd h (Nat.not_lt_zero b)

/-- C5 (amended): across the outer loop, `best_score[b]` is non-decreasing
for every band `b` **below the solved-prefix count of the iteration**; bands
at or beyond that prefix are overwritten with the new `final_score` when a
snapshot is taken and may decrease. -/
theorem C5_amended (final_score best_score : List ℚ) (prev cur : List (List Int))
    (max_solved : ℕ) (b : ℕ)
    (hb : b < solvedCount final_score best_score prev cur) :
    nthQ best_score b ≤ nthQ (updateBest final_score best_score prev cur max_solved).1 b := by
  unfold updateBest
  by_cases h : max_solved ≤ solvedCount final_score best_score prev cur
  · rw [if_pos h]
    exact solvedCountGo_prefix prev cur final_score best_score 0 b hb
  · rw [if_neg h]

/-- Witness for C5: the amended theorem at the concrete counterexample
iteration, band 0 (inside the solved prefix): `best_score[0]` grows from
1/2 to 3/5. -/
theorem C5_amended_witness :
    nthQ [mkRat 5 10, mkRat 9 10] 0
      ≤ nthQ (updateBest [mkRat 6 10, mkRat 3 10] [mkRat 5 10, mkRat 9 10]
          [[1, 1]] [[1, 1]] 1).1 0 :=
  C5_amended [mkRat 6 10, mkRat 3 10] [mkRat 5 10, mkRat 9 10]
    [[1, 1]] [[1, 1]] 1 0 (by decide)

/-! ### The outer solver loop's control flow
(clustering_libs.py lines 1004-1044, `MATERIAL.solve`)

`TOL` starts at 0.5 and decreases by `step` after each iteration; the loop
continues while `bands_final` changed in the previous iteration and
`TOL >= min_tol`.  `runs step min_tol changed n` says whether iteration `n`
executes, where `changed m` abstracts whether the `m`-th iteration changed
`bands_final` (line 1018). -/

/-- `np.sum(np.abs(prev - cur))` over one row. -/
def sumAbsRow (a b : List Int) : ℕ :=
  (a.zip b).foldr (fun p acc => (p.1 - p.2).natAbs + acc) 0

/-- `np.sum(np.abs(prev - cur))` over a 2-D array. -/
def sumAbsDiff (a b : List (List Int)) : ℕ :=
  (a.zip b).foldr (fun p acc => sumAbsRow p.1 p.2 + acc) 0

/-- Line 1018: `bands_final_flag = np.sum(np.abs(prev - cur)) != 0`. -/
def bandsChanged (prev cur : List (List Int)) : Bool :=
  sumAbsDiff prev cur != 0

/-- Iteration `n` of the `while bands_final_flag and TOL >= min_tol` loop
executes iff iteration `n-1` executed, changed `bands_final`, and the
decremented tolerance `0.5 - n*step` is still `>= min_tol`. -/
def runs (step min_tol : ℚ) (changed : ℕ → Bool) : ℕ → Bool
  | 0 => decide (min_tol ≤ mkRat 1 2)
  | n + 1 =>
    runs step min_tol changed n && changed n &&
      decide (min_tol ≤ mkRat 1 2 - ((n : ℚ) + 1) * step)

theorem runs_tol (step min_tol : ℚ) (changed : ℕ → Bool) :
    ∀ n, runs step min_tol changed n = true → min_tol ≤ mkRat 1 2 - n * step := by
  intro n
  induction n with
  | zero => intro h; simpa using of_decide_eq_true h
  | succ n _ =>
    intro h
    rw [runs, Bool.and_eq_true, Bool.and_eq_true] at h
    have := of_decide_eq_true h.2
    push_cast
    push_cast at this
    linarith

/-- C9: for every `step > 0` and `min_tol ≤ 0.5` the outer loop terminates:
every executed iteration index satisfies `n ≤ ⌊(0.5 - min_tol)/step⌋`, so at
most `⌊(0.5 - min_tol)/step⌋ + 1` iterations run; moreover the loop stops as
soon as `bands_final` is unchanged (`changed n = false`, and an unchanged
array always yields `bandsChanged m m = false`) or the tolerance drops below
`min_tol`. -/
theorem C9_solve_terminates (step min_tol : ℚ) (changed : ℕ → Bool)
    (hstep : 0 < step) (htol : min_tol ≤ 1 / 2) :
    (∀ n, runs step min_tol changed n = true → n ≤ ⌊(1 / 2 - min_tol) / step⌋₊) ∧
      (∀ n, changed n = false → runs step min_tol changed (n + 1) = false) ∧
      (∀ n : ℕ, 1 / 2 - ((n : ℚ) + 1) * step < min_tol →
        runs step min_tol changed (n + 1) = false) ∧
      (∀ m, bandsChanged m m = false) := by
  have hhalf : (mkRat 1 2 : ℚ) = 1 / 2 := by norm_num [mkRat]
  refine ⟨?_, ?_, ?_, ?_⟩
  · intro n h
    have := runs_tol step min_tol changed n h
    rw [hhalf] at this
    have hns : (n : ℚ) * step ≤ 1 / 2 - min_tol := by linarith
    have : (n : ℚ) ≤ (1 / 2 - min_tol) / step := (le_div_iff₀ hstep).mpr hns
    exact Nat.le_floor this
  · intro n h
    simp [runs, h]
  · intro n h
    have : ¬ min_tol ≤ mkRat 1 2 - ((n : ℚ) + 1) * step := by
      rw [hhalf]; linarith
    simp [runs, this]
  · intro m
    suffices h : sumAbsDiff m m = 0 by simp [bandsChanged, h]
    induction m with
    | nil => rfl
    | cons row rows ih =>
      have hrow : sumAbsRow row row = 0 := by
        induction row with
        | nil => rfl
        | cons v vs ihv => simpa [sumAbsRow, List.zip_cons_cons] using ihv
      simpa [sumAbsDiff, List.zip_cons_cons, hrow] using ih

/-- Witness for C9: with `step = 1/10`, `min_tol = 0` and always-changing
bands, iteration 3 runs and the theorem bounds its index by
`⌊(1/2 - 0)/(1/10)⌋ = 5`; the other conjuncts instantiated concretely. -/
theorem C9_solve_terminates_witness :
    3 ≤ ⌊((1 : ℚ) / 2 - 0) / (mkRat 1 10)⌋₊ ∧
      runs (mkRat 1 10) 0 (fun _ => false) 1 = false ∧
      bandsChanged [[0, 1]] [[0, 1]] = false := by
  have hT := C9_solve_terminates (mkRat 1 10) 0 (fun _ => true)
    (by norm_num [mkRat]) (by norm_num)
  have hF := C9_solve_terminates (mkRat 1 10) 0 (fun _ => false)
    (by norm_num [mkRat]) (by norm_num)
  exact ⟨hT.1 3 (by decide), hF.2.1 0 rfl, hT.2.2.2 [[0, 1]]⟩

/-! ### `evaluate_point` (clustering_libs.py lines 82-198)

Directional energy-continuity test used by the signal corrector.  For each
cardinal direction up to `N = 4` grid points are collected along the line;
directions whose candidate coordinates all fall outside the grid append the
maximal energy value 1. -/

/-- NumPy read of a float row at a (possibly negative, Python-wrapping)
integer index. -/
def npGetQ (l : List ℚ) (i : Int) : ℚ :=
  if i < 0 then nthQ l (l.length - i.natAbs) else nthQ l i.toNat

/-- 2-D read of a ℕ-valued matrix. -/
def get2N (m : List (List ℕ)) (r c : ℕ) : ℕ := (m.getD r []).getD c 0

/-- Kernel-computable embedding of the `Int → ℚ` coercion. -/
def intToQ (v : Int) : ℚ := Rat.divInt v 1

theorem intToQ_eq (v : Int) : intToQ v = (v : ℚ) := Rat.divInt_one v

/-- Sum of an integer list. -/
def sumI (l : List Int) : Int := l.foldr (· + ·) 0

/-- Second-order polynomial `a*x² + b*x + c`. -/
def pol (a b c x : ℚ) : ℚ := a * x * x + b * x + c

/-- Least-squares quadratic fit through `(xs, ys)`: models
`scipy.optimize.curve_fit` with the quadratic model, i.e. the normal
equations of the linear least-squares problem solved by Cramer's rule
(`(0,0,0)` on a singular system, unreachable for ≥ 3 distinct abscissae). -/
def quadFit (xs ys : List ℚ) : ℚ × ℚ × ℚ :=
  let n : ℚ := (xs.length : ℚ)
  let s1 := sumQ xs
  let s2 := sumQ (xs.map fun x => x * x)
  let s3 := sumQ (xs.map fun x => x * x * x)
  let s4 := sumQ (xs.map fun x => x * x * x * x)
  let t0 := sumQ ys
  let t1 := sumQ ((xs.zip ys).map fun p => p.1 * p.2)
  let t2 := sumQ ((xs.zip ys).map fun p => p.1 * p.1 * p.2)
  let det := s4 * (s2 * n - s1 * s1) - s3 * (s3 * n - s1 * s2) + s2 * (s3 * s1 - s2 * s2)
  if det = 0 then (0, 0, 0)
  else
    let da := t2 * (s2 * n - s1 * s1) - s3 * (t1 * n - s1 * t0) + s2 * (t1 * s1 - s2 * t0)
    let db := s4 * (t1 * n - s1 * t0) - t2 * (s3 * n - s1 * s2) + s2 * (s3 * t0 - s2 * t1)
    let dc := s4 * (s2 * t0 - t1 * s1) - s3 * (s3 * t0 - t1 * s2) + t2 * (s3 * s1 - s2 * s2)
    (divQ da det, divQ db det, divQ dc det)

/-- Inner `difference_energy` of `evaluate_point` (lines 131-146): score of
how close `Enew` is to `Ek` relative to the best alternative band at `k`. -/
def point_difference_energy (energies : List (List ℚ)) (k : ℕ) (Ek Enew : ℚ) : ℚ :=
  let min_energy := minQ ((energies.getD k []).map fun e => absQ (Enew - e))
  let delta := absQ (Enew - Ek)
  if delta = 0 then 1 else divQ min_energy delta

/-- Lines 156-168: the ≤ 4 candidate grid coordinates along one direction,
filtered to the grid; returns `(i, j, flag)` after the filtering step. -/
def direction_coords (k_matrix : List (List ℕ)) (ik jk di dj : Int) :
    List Int × List Int × Bool :=
  let ns : List Int := [1, 2, 3, 4]
  let i := ns.map fun t => ik + t * di
  let j := ns.map fun t => jk + t * dj
  let flag := 1 < i.dedup.length
  let nkx := (k_matrix.length : Int)
  let nky := ((k_matrix.getD 0 []).length : Int)
  if flag then
    let i2 := (i.filter fun v => 0 ≤ v).filter fun v => v < nkx
    (i2, List.replicate i2.length (nthI j 0), flag)
  else
    let j2 := (j.filter fun v => 0 ≤ v).filter fun v => v < nky
    (List.replicate j2.length (nthI i 0), j2, flag)

/-- Line 170: the surviving k-points along one direction. -/
def direction_ks (k_matrix : List (List ℕ)) (ik jk di dj : Int) : List ℕ :=
  let c := direction_coords k_matrix ik jk di dj
  (c.1.zip c.2.1).map fun p => get2N k_matrix p.1.toNat p.2.toNat

/-- Lines 170-188: the energy value appended for one direction: 1 when no
candidate survives, the nearest-neighbor comparison for ≤ 3 points, and the
quadratic-fit comparison for 4 points. -/
def direction_energy (k_matrix : List (List ℕ)) (bands : List (List Int))
    (energies : List (List ℚ)) (k bn : ℕ) (Ek : ℚ) (ik jk di dj : Int) : ℚ :=
  let c := direction_coords k_matrix ik jk di dj
  let ks := direction_ks k_matrix ik jk di dj
  if ks.isEmpty then 1
  else if ks.length ≤ 3 then
    let k0 := nthN ks 0
    let Eneig := npGetQ (energies.getD k0 []) (get2 bands k0 bn 0)
    point_difference_energy energies k Ek Eneig
  else
    let k_bands := ks.map fun kp => get2 bands kp bn 0
    let Es := (ks.zip k_bands).map fun p => npGetQ (energies.getD p.1 []) p.2
    let X := if c.2.2 then c.1 else c.2.1
    let new_x := if c.2.2 then ik else jk
    let f := quadFit (X.map intToQ) Es
    let Enew := pol f.1 f.2.1 f.2.2 (intToQ new_x)
    point_difference_energy energies k Ek Enew

/-- `evaluate_point` (lines 82-198).  The `signal` argument is read into a
local that the source never uses; it is kept for signature fidelity.
Returns the corrected signal (4 = CORRECT, 1 = MISTAKE, 3 = OTHER) and the
per-direction 0/1 continuity scores in order (Down, Right, Up, Left). -/
def evaluate_point (k bn : ℕ) (k_index : List (ℕ × ℕ)) (k_matrix : List (List ℕ))
    (signal bands : List (List Int)) (energies : List (List ℚ)) : Int × List Int :=
  let mach_bn := get2 bands k bn 0
  let p := k_index.getD k (0, 0)
  let ik : Int := p.1
  let jk : Int := p.2
  let Ek := npGetQ (energies.getD k []) mach_bn
  let dirs : List (Int × Int) := [(1, 0), (0, 1), (-1, 0), (0, -1)]
  let energy_vals := dirs.map fun d =>
    direction_energy k_matrix bands energies k bn Ek ik jk d.1 d.2
  let scores := energy_vals.map fun v => if mkRat 9 10 < v then (1 : Int) else 0
  let score := sumI scores
  if score = 4 then (4, scores) else if score = 0 then (1, scores) else (3, scores)

/-- Concrete 2×2 grid for C10: `kid = j*2 + i`, all bands/energies constant. -/
def c10_kmatrix : List (List ℕ) := [[0, 2], [1, 3]]

def c10_kindex : List (ℕ × ℕ) := [(0, 0), (1, 0), (0, 1), (1, 1)]

def c10_bands : List (List Int) := [[0], [0], [0], [0]]

def c10_signal : List (List Int) := [[4], [4], [4], [4]]

def c10_energies : List (List ℚ) := [[5], [5], [5], [5]]

/-- C10: in `evaluate_point`, a cardinal direction whose candidate grid
coordinates all fall outside the k-grid contributes the maximal energy value
1 (counted as preserving continuity, since 1 > 0.9); consequently the corner
k-point 0 of a 2×2 grid is assigned the corrected signal CORRECT (4) although
only the two in-grid directions (Down, Right) were tested against data — the
Up and Left directions have no surviving candidate point. -/
theorem C10_evaluate_point_border :
    (∀ (k_matrix : List (List ℕ)) (bands : List (List Int)) (energies : List (List ℚ))
        (k bn : ℕ) (Ek : ℚ) (ik jk di dj : Int),
        direction_ks k_matrix ik jk di dj = [] →
        direction_energy k_matrix bands energies k bn Ek ik jk di dj = 1 ∧
          mkRat 9 10 < (1 : ℚ)) ∧
      evaluate_point 0 0 c10_kindex c10_kmatrix c10_signal c10_bands c10_energies
        = (4, [1, 1, 1, 1]) ∧
      direction_ks c10_kmatrix 0 0 (-1) 0 = [] ∧
      direction_ks c10_kmatrix 0 0 0 (-1) = [] ∧
      direction_ks c10_kmatrix 0 0 1 0 ≠ [] ∧
      direction_ks c10_kmatrix 0 0 0 1 ≠ [] := by
  refine ⟨?_, by decide, by decide, by decide, by decide, by decide⟩
  intro k_matrix bands energies k bn Ek ik jk di dj h
  constructor
  · unfold direction_energy
    rw [h]
    rfl
  · decide

/-- Witness for C10: the general part of the theorem applied to the concrete
out-of-grid Up direction at the corner k-point 0. -/
theorem C10_evaluate_point_border_witness :
    direction_energy c10_kmatrix c10_bands c10_energies 0 0 5 0 0 (-1) 0 = 1 ∧
      mkRat 9 10 < (1 : ℚ) :=
  C10_evaluate_point_border.1 c10_kmatrix c10_bands c10_energies 0 0 5 0 0 (-1) 0
    (by decide)

/-! ### `COMPONENT.get_cluster_score` (clustering_libs.py lines 1129-1216)

Sample-to-cluster similarity: over the sample's boundary `k_edges`, each
4-neighbor lying in the cluster's boundary contributes
`tol*<i|j> + (1-tol)*fit_energy`; the total is divided by
`len(self.k_edges)*4`.  The memo at lines 1198-1199 returns the score stored
in `self.scores[cluster.__id__]` **when `cluster.was_modified` is true**, and
recomputes (lines 1201-1216) when it is false. -/

/-- A `COMPONENT` as seen by the scoring code: boundary, k-set, band
assignment, identity, modification flag, and memoized scores. -/
structure SComp where
  k_edges : List ℕ
  k_points : List ℕ
  bands_number : List (ℕ × ℕ)
  id : ℕ
  was_modified : Bool
  scores : List (ℕ × ℚ)
deriving DecidableEq

/-- Python `dict` read (`dict(zip(...))`, later bindings win); default 0 is
junk, all reads in the embedded runs hit an existing key. -/
def dictGetN (l : List (ℕ × ℕ)) (k : ℕ) : ℕ := (l.reverse.lookup k).getD 0

/-- `self.scores[id]` — `none` models the KeyError on a missing key. -/
def scoresGet (l : List (ℕ × ℚ)) (i : ℕ) : Option ℚ := l.reverse.lookup i

/-- `self.scores[id] = v`. -/
def scoresSet (l : List (ℕ × ℚ)) (i : ℕ) (v : ℚ) : List (ℕ × ℚ) := l ++ [(i, v)]

/-- Inner `difference_energy` (lines 1146-1154): ratio of the best
alternative-band energy gap to the actual gap at the neighbor k-point. -/
def comp_difference_energy (energies : ℕ → Int → Int → ℚ) (min_band max_band : ℕ)
    (bn1 bn2 : ℕ) (iK1 iK2 : Int × Int) (Ei0 : Option ℚ) : ℚ :=
  let Ei := Ei0.getD (energies bn1 iK1.1 iK1.2)
  let bandsL := List.range' min_band (max_band + 1 - min_band)
  let min_energy := minQ (bandsL.map fun bn => absQ (Ei - energies bn iK2.1 iK2.2))
  let delta := absQ (Ei - energies bn2 iK2.1 iK2.2)
  if delta = 0 then 1 else divQ min_energy delta

/-- Inner `fit_energy` (lines 1156-1195): collect up to 5 sample points on
the grid line through `iK1` away from `iK2`, quadratic-fit their energies
when more than 3 survive, else fall back to the plain energy difference. -/
def comp_fit_energy (self : SComp) (matrix : List (List ℕ))
    (energies : ℕ → Int → Int → ℚ) (min_band max_band : ℕ)
    (bn1 bn2 : ℕ) (iK1 iK2 : Int × Int) : ℚ :=
  let ik1 := iK1.1
  let jk1 := iK1.2
  let ik_n := iK2.1
  let jk_n := iK2.2
  let flag := ik1 = ik_n
  let rngs : List Int := [0, 1, 2, 3, 4]
  let i := if flag then List.replicate 5 ik1 else rngs.map fun t => ik1 + t * Int.sign (ik1 - ik_n)
  let j := if flag then rngs.map (fun t => jk1 + t * Int.sign (jk1 - jk_n)) else List.replicate 5 jk1
  let m0 := (matrix.length : Int)
  let m1 := ((matrix.getD 0 []).length : Int)
  let ij :=
    if ¬ flag then
      let i2 := (i.filter fun v => 0 ≤ v).filter fun v => v < m0
      (i2, List.replicate i2.length jk1)
    else
      let j2 := (j.filter fun v => 0 ≤ v).filter fun v => v < m1
      (List.replicate j2.length ik1, j2)
  let ks := (ij.1.zip ij.2).map fun p => get2N matrix p.1.toNat p.2.toNat
  let trip := ((ks.zip ij.1).zip ij.2).filter fun t => self.k_points.contains t.1.1
  let ks2 := trip.map fun t => t.1.1
  if ks2.length ≤ 3 then
    comp_difference_energy energies min_band max_band bn1 bn2 iK1 iK2 none
  else
    let bandsK := ks2.map fun kp => dictGetN self.bands_number kp + min_band
    let i3 := trip.map fun t => t.1.2
    let j3 := trip.map fun t => t.2
    let Es := (bandsK.zip (i3.zip j3)).map fun p => energies p.1 p.2.1 p.2.2
    let X := if jk1 = jk_n then i3 else j3
    let new_x := if jk1 = jk_n then ik_n else jk_n
    let f := quadFit (X.map intToQ) Es
    let Enew := pol f.1 f.2.1 f.2.2 (intToQ new_x)
    comp_difference_energy energies min_band max_band bn1 bn2 iK1 iK2 (some Enew)

/-- `get_cluster_score` (lines 1129-1216), as a pure function returning the
score (or `none` for a KeyError) together with the updated sample (`self`,
whose cache may gain an entry) and cluster (whose flag is written). -/
def get_cluster_score (self cluster : SComp) (min_band max_band : ℕ)
    (neighbors : ℕ → ℕ → Int) (matrix : List (List ℕ)) (kpoints_index : List (ℕ × ℕ))
    (energies : ℕ → Int → Int → ℚ) (connections : ℕ → ℕ → ℕ → ℕ → ℚ) (tol : ℚ) :
    Option ℚ × SComp × SComp :=
  if cluster.was_modified then
    (scoresGet self.scores cluster.id, self, cluster)
  else
    let cluster2 := { cluster with was_modified := false }
    let total := self.k_edges.foldr
      (fun k acc =>
        let bn1 := dictGetN self.bands_number k + min_band
        let p := kpoints_index.getD k (0, 0)
        acc + sumQ ((List.range 4).map fun i_neig =>
          let k_n := neighbors k i_neig
          if k_n = -1 ∨ ¬ cluster.k_edges.contains k_n.toNat then 0
          else
            let kn := k_n.toNat
            let pn := kpoints_index.getD kn (0, 0)
            let bn2 := dictGetN cluster.bands_number kn + min_band
            let connection := connections k i_neig bn1 bn2
            let energy_val := comp_fit_energy self matrix energies min_band max_band
              bn1 bn2 ((p.1 : Int), (p.2 : Int)) ((pn.1 : Int), (pn.2 : Int))
            tol * connection + (1 - tol) * energy_val))
      0
    let score := divQ total ((self.k_edges.length : ℚ) * 4)
    let self2 := { self with scores := scoresSet self.scores cluster.id score }
    (some score, self2, cluster2)

/-! Concrete merger state for C1: 2×2 grid, one band window, a sample at
k-point 0 whose cache holds the stale value 99 for cluster 7, and cluster 7
occupying k-points 1 and 2. -/

def c1_matrix : List (List ℕ) := [[0, 2], [1, 3]]

def c1_kindex : List (ℕ × ℕ) := [(0, 0), (1, 0), (0, 1), (1, 1)]

def c1_neighbors (k d : ℕ) : Int :=
  nthI ((([[1, 2, -1, -1], [-1, 3, 0, -1], [3, -1, -1, 0], [-1, -1, 2, 1]] :
    List (List Int)).getD k [])) d

def c1_energies (_bn : ℕ) (i j : Int) : ℚ := intToQ (i + j)

def c1_connections (_k _d _b1 _b2 : ℕ) : ℚ := mkRat 4 5

def c1_sample : SComp :=
  { k_edges := [0], k_points := [0], bands_number := [(0, 0)], id := 3,
    was_modified := false, scores := [(7, 99)] }

def c1_cluster : SComp :=
  { k_edges := [1, 2], k_points := [1, 2], bands_number := [(1, 0), (2, 0)], id := 7,
    was_modified := true, scores := [] }

/-- C1 (code bug): `get_cluster_score` reuses the cached score exactly when
the cluster **was** modified, and recomputes when it was not — the opposite
of the claim (and of the evident intent of the `was_modified` flag).  On the
concrete state: with the flag set, the stale cached 99 is returned and the
sample's cache is left untouched; with the flag clear, the score is
recomputed from the boundary overlap/energy mix as 9/20 ≠ 99. -/
theorem C1_memoization_inverted :
    (get_cluster_score c1_sample c1_cluster 0 0 c1_neighbors c1_matrix c1_kindex
        c1_energies c1_connections (mkRat 1 2)).1 = some 99 ∧
      (get_cluster_score c1_sample c1_cluster 0 0 c1_neighbors c1_matrix c1_kindex
        c1_energies c1_connections (mkRat 1 2)).2.1 = c1_sample ∧
      (get_cluster_score c1_sample { c1_cluster with was_modified := false } 0 0
        c1_neighbors c1_matrix c1_kindex c1_energies c1_connections (mkRat 1 2)).1
        = some (mkRat 9 20) ∧
      (99 : ℚ) ≠ mkRat 9 20 := by
  refine ⟨by decide, by decide, by decide, by decide⟩

/-! ### `MATERIAL.obtain_output` (clustering_libs.py lines 707-852)

Output compilation: solved components claim physical bands first (in
discovery order), then clusters sorted by descending size; per-node signals
are computed by `evaluate_result`; the `degenerados` pairs get signal
DEGENERATE at remapped band columns; the per-band score and basis-rotation
scan fills `final_score` and `degenerate_final`.  Failure paths of the
source (IndexError on an exhausted solved candidate list, and the
`np.array(1, -1)` TypeError in the rotation tiebreak at line 840) are
modelled as `none`. -/

/-- Insertion step of a sort over ℕ. -/
def insertSorted (x : ℕ) : List ℕ → List ℕ
  | [] => [x]
  | y :: ys => if x ≤ y then x :: y :: ys else y :: insertSorted x ys

/-- Adjacent deduplication of a sorted list. -/
def dedupAdj : List ℕ → List ℕ
  | [] => []
  | [x] => [x]
  | x :: y :: ys => if x = y then dedupAdj (y :: ys) else x :: dedupAdj (y :: ys)

/-- `np.unique` of a 1-D ℕ array: sorted distinct values. -/
def uniqueSorted (l : List ℕ) : List ℕ := dedupAdj (l.foldr insertSorted [])

/-- Insertion step of the stable `np.argsort`: pairs `(index, value)` ordered
by value, ties by index. -/
def argsortIns {α : Type} [LinearOrder α] (p : ℕ × α) : List (ℕ × α) → List (ℕ × α)
  | [] => [p]
  | q :: qs =>
    if p.2 < q.2 ∨ (p.2 = q.2 ∧ p.1 ≤ q.1) then p :: q :: qs else q :: argsortIns p qs

/-- Stable `np.argsort` (ascending). -/
def argsort {α : Type} [LinearOrder α] (l : List α) : List ℕ :=
  (l.enum.foldr argsortIns []).map fun p => p.1

/-- `COMPONENT.get_bands` (lines 1083-1090): `k_points = nodes % nks`. -/
def compKpoints (nodes : List ℕ) (nks : ℕ) : List ℕ := nodes.map (· % nks)

/-- `k_bands = nodes // nks`. -/
def compKbands (nodes : List ℕ) (nks : ℕ) : List ℕ := nodes.map (· / nks)

/-- `bands_number = dict(zip(nodes % nks, nodes // nks))`. -/
def compBandsNumber (nodes : List ℕ) (nks : ℕ) : List (ℕ × ℕ) :=
  (compKpoints nodes nks).zip (compKbands nodes nks)

/-- `self.bands`: band offsets sorted by descending multiplicity
(`bands[np.argsort(counts)[::-1]]`; on count ties the higher offset, which
`np.unique` sorted later, comes first after the reversal). -/
def modalBands (nodes : List ℕ) (nks : ℕ) : List ℕ :=
  let kb := compKbands nodes nks
  let uniq := uniqueSorted kb
  let counts := uniq.map fun u => kb.count u
  ((argsort counts).reverse).map fun i => nthN uniq i

/-- Lines 719-723: pop candidates until one is outside `solved_bands`;
`none` is the IndexError when the candidates run out (no break for solved
components). -/
def solvedPick (min_band : ℕ) (sb : List ℕ) : List ℕ → Option ℕ
  | [] => none
  | c :: rest =>
    if (c + min_band) ∈ sb then solvedPick min_band sb rest else some (c + min_band)

/-- Lines 742-749 for clusters: `some none` is the `break` when the last
candidate is also taken; `none` the IndexError on an empty candidate list. -/
def clusterPick (min_band : ℕ) (sb : List ℕ) : List ℕ → Option (Option ℕ)
  | [] => none
  | [c] => if (c + min_band) ∈ sb then some none else some (some (c + min_band))
  | c :: rest =>
    if (c + min_band) ∈ sb then clusterPick min_band sb rest else some (some (c + min_band))

/-- `bands_final[component.k_points, bn] = k_bands + min_band`. -/
def writeBands (bf : List (List Int)) (kpts kbands : List ℕ) (bn min_band : ℕ) :
    List (List Int) :=
  (kpts.zip kbands).foldl (fun acc p => set2 acc p.1 bn ((p.2 + min_band : ℕ) : Int)) bf

/-- The input state of `obtain_output`: grid and window parameters, the raw
neighbor/overlap tables, the components produced by `get_components`, the
detected degenerate node pairs, and the incoming `bands_final` /
`signal_final` arrays (they persist across outer iterations). -/
structure OOInput where
  nks : ℕ
  total_bands : ℕ
  min_band : ℕ
  neighbors : ℕ → ℕ → Int
  connections : ℕ → ℕ → Int → Int → ℚ
  solved : List (List ℕ)
  clusters : List (List ℕ)
  degenerados : List (ℕ × ℕ)
  bands0 : List (List Int)
  signal0 : List (List Int)

structure OOResult where
  bands_final : List (List Int)
  signal_final : List (List Int)
  degenerate_final : List (List ℕ)
  final_score : List ℚ
deriving DecidableEq

/-- Lines 716-736: one solved component (modal band pick, `bands_final`
write, `evaluate_result` signal over the existing neighbors). -/
def solvedStep (inp : OOInput) (nodes : List ℕ) (sb : List ℕ)
    (bf sf : List (List Int)) : Option (List ℕ × List (List Int) × List (List Int)) :=
  let kpts := compKpoints nodes inp.nks
  let bnum := compBandsNumber nodes inp.nks
  match solvedPick inp.min_band sb (modalBands nodes inp.nks) with
  | none => none
  | some bn =>
    let bf2 := writeBands bf kpts (compKbands nodes inp.nks) bn inp.min_band
    let sf2 := kpts.foldl
      (fun acc k =>
        let bn1 := dictGetN bnum k + inp.min_band
        let conns := (List.range 4).filterMap fun i_neig =>
          let k_neig := inp.neighbors k i_neig
          if k_neig = -1 then none
          else some (inp.connections k i_neig (bn1 : ℕ)
            ((dictGetN bnum k_neig.toNat + inp.min_band : ℕ) : Int))
        set2 acc k bn (evaluate_result conns))
      sf
    some (sb ++ [bn], bf2, sf2)

def solvedLoop (inp : OOInput) : List (List ℕ) → List ℕ → List (List Int) →
    List (List Int) → Option (List ℕ × List (List Int) × List (List Int))
  | [], sb, bf, sf => some (sb, bf, sf)
  | nodes :: rest, sb, bf, sf =>
    (solvedStep inp nodes sb bf sf).bind fun t => solvedLoop inp rest t.1 t.2.1 t.2.2

/-- Lines 752-765: `bands_final` write and signal of one assigned cluster
(absent neighbor k-points contribute overlap 0). -/
def clusterWrite (inp : OOInput) (nodes : List ℕ) (bn : ℕ)
    (bf sf : List (List Int)) : List (List Int) × List (List Int) :=
  let kpts := compKpoints nodes inp.nks
  let bnum := compBandsNumber nodes inp.nks
  let bf2 := writeBands bf kpts (compKbands nodes inp.nks) bn inp.min_band
  let sf2 := kpts.foldl
    (fun acc k =>
      let bn1 := dictGetN bnum k + inp.min_band
      let conns := (List.range 4).filterMap fun i_neig =>
        let k_neig := inp.neighbors k i_neig
        if k_neig = -1 then none
        else if ¬ kpts.contains k_neig.toNat then some 0
        else some (inp.connections k i_neig (bn1 : ℕ)
          ((dictGetN bnum k_neig.toNat + inp.min_band : ℕ) : Int))
      set2 acc k bn (evaluate_result conns))
    sf
  (bf2, sf2)

/-- Lines 738-765: the cluster loop over clusters sorted by descending size;
an exhausted candidate list `break`s out of the whole loop. -/
def clusterLoop (inp : OOInput) : List (List ℕ) → List ℕ → List (List Int) →
    List (List Int) → Option (List ℕ × List (List Int) × List (List Int))
  | [], sb, bf, sf => some (sb, bf, sf)
  | nodes :: rest, sb, bf, sf =>
    (clusterPick inp.min_band sb (modalBands nodes inp.nks)).bind fun ob =>
      match ob with
      | none => some (sb, bf, sf)
      | some bn =>
        let w := clusterWrite inp nodes bn bf sf
        clusterLoop inp rest (sb ++ [bn]) w.1 w.2

/-- `clusters_sort[::-1]` (line 738). -/
def orderClusters (clusters : List (List ℕ)) : List (List ℕ) :=
  ((argsort (clusters.map List.length)).reverse).map fun i => clusters.getD i []

/-- Line 774: `np.argmax(bands_final[k] == bn)` fallback `bn` when no
column matches. -/
def remapBand (row : List Int) (bn : ℕ) : ℕ :=
  match row.findIdx? (fun v => v = (bn : Int)) with
  | some i => i
  | none => bn

/-- Lines 768-778 for a single degenerate pair: signal DEGENERATE at the two
remapped positions. -/
def degStep (bands : List (List Int)) (nks min_band : ℕ) (sig : List (List Int))
    (p : ℕ × ℕ) : List (List Int) :=
  let k1 := p.1 % nks
  let c1 := remapBand (bands.getD k1 []) (p.1 / nks + min_band)
  let k2 := p.2 % nks
  let c2 := remapBand (bands.getD k2 []) (p.2 / nks + min_band)
  set2 (set2 sig k1 c1 DEGENERATE) k2 c2 DEGENERATE

def degeneradosLoop (bands : List (List Int)) (nks min_band : ℕ) :
    List (ℕ × ℕ) → List (List Int) → List (List Int)
  | [], sig => sig
  | p :: ps, sig => degeneradosLoop bands nks min_band ps (degStep bands nks min_band sig p)

/-- An entry of `k_basis_rotation` (line 819). -/
structure RotEntry where
  k : ℕ
  k_deg : List Int
  bn : ℕ
  bns_deg : List (List ℕ)
deriving DecidableEq

/-- An entry of the `degenerates` list of the pairing loop (line 847). -/
structure DegEntry where
  k : ℕ
  bn1 : ℕ
  bn2 : ℕ
  k_deg : List Int
deriving DecidableEq

/-- Group a sorted key list with parallel values into per-key value lists
(`np.unique(..., return_index=True)` + `np.split` on a sorted array). -/
def groupAdjGo (curK : Int) (curVs : List ℕ) : List Int → List ℕ → List (Int × List ℕ)
  | [], _ => [(curK, curVs.reverse)]
  | _ :: _, [] => [(curK, curVs.reverse)]
  | k :: ks, v :: vs =>
    if k = curK then groupAdjGo curK (v :: curVs) ks vs
    else (curK, curVs.reverse) :: groupAdjGo k [v] ks vs

def groupAdj : List Int → List ℕ → List (Int × List ℕ)
  | [], _ => []
  | _ :: _, [] => []
  | k :: ks, v :: vs => groupAdjGo k [v] ks vs

/-- Lines 787-820 for one (band, k-point): the k-point's contribution to the
band score (mean of realized neighbor overlaps) and its basis-rotation entry
when several target bands at one neighbor fall into the [0.5, 0.8] window.
(`bn_unique[i_deg]` with a length-1 index array reads the single group, as
the list comprehension does for longer ones.) -/
def scanK (inp : OOInput) (sig bands : List (List Int)) (bn k : ℕ) :
    ℚ × Option RotEntry :=
  if get2 sig k bn 0 = 0 then (0, none)
  else
    let pairs2 := (((List.range 4).map fun d => (d, inp.neighbors k d)).filter
        fun p => p.2 ≠ -1).filter
      fun p => get2 sig p.2.toNat bn 0 ≠ 0
    if pairs2.isEmpty then (0, none)
    else
      let bn_k := get2 bands k bn 0
      let dps := pairs2.map fun p => inp.connections k p.1 bn_k (get2 bands p.2.toNat bn 0)
      let entry :=
        if dps.any (fun v => decide (mkRat 1 2 ≤ v) && decide (v ≤ mkRat 4 5)) then
          let wpairs : List (ℕ × ℕ) := (List.range pairs2.length).flatMap fun ri =>
            (List.range inp.total_bands).filterMap fun (b : ℕ) =>
              let v := inp.connections k (pairs2.getD ri (0, 0)).1 bn_k (b : Int)
              if mkRat 1 2 ≤ v ∧ v ≤ mkRat 4 5 then some (ri, b) else none
          let minI := minN (pairs2.map fun p => p.1)
          let k_deg := wpairs.map fun w => inp.neighbors k (w.1 + minI)
          let isort := argsort k_deg
          let k_deg_s := isort.map fun ix => nthI k_deg ix
          let bn_deg_s := isort.map fun ix => nthN (wpairs.map fun w => w.2) ix
          let grps := (groupAdj k_deg_s bn_deg_s).filter fun g => 1 < g.2.length
          if grps.isEmpty then none
          else some ⟨k, grps.map (fun g => g.1), bn, grps.map fun g => g.2⟩
        else none
      (npMean dps, entry)

/-- Lines 785-822 for one band: `final_score[bn]` and the band's
`k_basis_rotation` entries. -/
def scanBand (inp : OOInput) (sig bands : List (List Int)) (bn : ℕ) :
    ℚ × List RotEntry :=
  let contribs := (List.range inp.nks).map fun k => scanK inp sig bands bn k
  (divQ (sumQ (contribs.map fun c => c.1)) inp.nks, contribs.filterMap fun c => c.2)

/-- `np.all([np.all(np.isin(bns, bns_deg_[j])) for j, bns in ...])`. -/
def bnsMatch (a b : List (List ℕ)) : Bool :=
  a.enum.all fun p => p.2.all fun x => (b.getD p.1 []).contains x

/-- The guard of the inner `degenerates` scan (line 834). -/
def degCollides (k bn bn2 : ℕ) (d : DegEntry) : Bool :=
  k = d.k && (decide (bn = d.bn1 ∨ bn = d.bn2) && decide (bn2 = d.bn1 ∨ bn2 = d.bn2)) &&
    d.k_deg.contains (k : Int)

/-- Lines 826-847 for one ordered pair of rotation entries; a hit in the
existing `degenerates` list reaches the `np.array(1, -1)` TypeError
(line 840), modelled as `none`. -/
def processPair (degs : List DegEntry) (e e2 : RotEntry) : Option (List DegEntry) :=
  if e.k = e2.k ∧ e.k_deg = e2.k_deg ∧ bnsMatch e.bns_deg e2.bns_deg then
    if degs.any (degCollides e.k e.bn e2.bn) then none
    else some (degs ++ [⟨e.k, e.bn, e2.bn, e.k_deg⟩])
  else some degs

def processPairs (e : RotEntry) : List RotEntry → List DegEntry → Option (List DegEntry)
  | [], degs => some degs
  | e2 :: rest, degs =>
    match processPair degs e e2 with
    | none => none
    | some d2 => processPairs e rest d2

/-- The all-pairs loop of lines 824-847. -/
def pairPhase : List RotEntry → List DegEntry → Option (List DegEntry)
  | [], degs => some degs
  | e :: rest, degs =>
    match processPairs e rest degs with
    | none => none
    | some d2 => pairPhase rest d2

/-- `MATERIAL.obtain_output` (lines 707-852). -/
def obtain_output (inp : OOInput) : Option OOResult :=
  (solvedLoop inp inp.solved [] inp.bands0 inp.signal0).bind fun t1 =>
    (clusterLoop inp (orderClusters inp.clusters) t1.1 t1.2.1 t1.2.2).bind fun t2 =>
      let bf2 := t2.2.1
      let sf3 := degeneradosLoop bf2 inp.nks inp.min_band inp.degenerados t2.2.2
      let scans := (List.range inp.total_bands).map fun bn => scanBand inp sf3 bf2 bn
      (pairPhase ((scans.map fun s => s.2).foldr (· ++ ·) []) []).map fun degs =>
        ⟨bf2, sf3, degs.map fun d => [d.k, d.bn1, d.bn2], scans.map fun s => s.1⟩

/-! Concrete `obtain_output` state for C4: a 1×2 grid with two bands, both
solved with the identity assignment; overlaps of 0.6 put every bond in the
basis-rotation window [0.5, 0.8] at k-point 0, so the rotation scan pairs
bands 0 and 1 there and emits the row (0, 0, 1) into `degenerate_final`,
while the signals stay at the `evaluate_result` value 3. -/

def c4_neighbors (k d : ℕ) : Int :=
  nthI ((([[-1, 1, -1, -1], [-1, -1, -1, 0]] : List (List Int)).getD k [])) d

def c4_connections (k d : ℕ) (b1 b2 : Int) : ℚ :=
  if k = 0 ∧ d = 1 then mkRat 3 5
  else if k = 1 ∧ d = 3 then (if b1 = b2 then mkRat 3 5 else mkRat 3 10)
  else 0

def inpC4 : OOInput :=
  { nks := 2, total_bands := 2, min_band := 0,
    neighbors := c4_neighbors, connections := c4_connections,
    solved := [[0, 1], [2, 3]], clusters := [], degenerados := [],
    bands0 := mkFull 2 2 (-1), signal0 := mkFull 2 2 0 }

def resC4 : OOResult :=
  { bands_final := [[0, 1], [0, 1]], signal_final := [[3, 3], [3, 3]],
    degenerate_final := [[0, 0, 1]], final_score := [mkRat 3 5, mkRat 3 5] }

/-- C4, counterexample: on the concrete state, the emitted output has the
row (0, 0, 1) in `degenerate_final`, but `signal_final[0, 0] = 3` and
`signal_final[0, 1] = 3`, not 2: the rows produced by the basis-rotation
detection never receive the DEGENERATE signal. -/
theorem C4_counterexample :
    obtain_output inpC4 = some resC4 ∧
      resC4.degenerate_final = [[0, 0, 1]] ∧
      get2 resC4.signal_final 0 0 0 ≠ DEGENERATE ∧
      get2 resC4.signal_final 0 1 0 ≠ DEGENERATE := by
  refine ⟨by decide, by decide, by decide, by decide⟩

/-! Concrete `obtain_output` state for C2: a 2×2 grid with three physical
band slots.  Solved components claim slots 0 and 2; the larger cluster
`[3, 9]` has candidate offsets {2, 0}, both already used, so the cluster
loop `break`s — and the smaller cluster `[4]`, whose candidate slot 1 is
still free, is never processed. -/

def c2_neighbors (k d : ℕ) : Int :=
  nthI ((([[1, 2, -1, -1], [-1, 3, 0, -1], [3, -1, -1, 0], [-1, -1, 2, 1]] :
    List (List Int)).getD k [])) d

def c2_connections (_k _d : ℕ) (_b1 _b2 : Int) : ℚ := mkRat 19 20

def inpC2 : OOInput :=
  { nks := 4, total_bands := 3, min_band := 0,
    neighbors := c2_neighbors, connections := c2_connections,
    solved := [[0, 1, 2, 7], [8, 5, 6, 11]], clusters := [[4], [3, 9]],
    degenerados := [],
    bands0 := mkFull 4 3 (-1), signal0 := mkFull 4 3 0 }

def resC2 : OOResult :=
  { bands_final := [[0, -1, 2], [0, -1, 1], [0, -1, 1], [1, -1, 2]],
    signal_final := [[5, 0, 5], [5, 0, 5], [5, 0, 5], [5, 0, 5]],
    degenerate_final := [],
    final_score := [mkRat 19 20, 0, mkRat 19 20] }

/-- C2, counterexample: the cluster `[3, 9]` (processed first, being larger)
exhausts its candidate slots and is discarded — but contrary to the claim the
remaining cluster `[4]` is **not** processed: physical band 1 stays entirely
free (`bands_final[:, 1] = -1`) even though it is the remaining cluster's
modal candidate slot. -/
theorem C2_counterexample :
    obtain_output inpC2 = some resC2 ∧
      modalBands [4] inpC2.nks = [1] ∧
      resC2.bands_final.map (fun r => nthI r 1) = [-1, -1, -1, -1] ∧
      get2 resC2.bands_final 0 1 (-1) = -1 := by
  refine ⟨by decide, by decide, by decide, by decide⟩

/-- C2 (amended): when a cluster cannot claim any free physical-band slot,
the cluster-assignment loop stops (`break`): that cluster **and every
cluster not yet processed** are discarded and the state is returned
unchanged — remaining clusters are not assigned even when a slot is free
for them. -/
theorem C2_amended (inp : OOInput) (nodes : List ℕ) (rest : List (List ℕ))
    (sb : List ℕ) (bf sf : List (List Int))
    (h : clusterPick inp.min_band sb (modalBands nodes inp.nks) = some none) :
    clusterLoop inp (nodes :: rest) sb bf sf = some (sb, bf, sf) := by
  unfold clusterLoop
  rw [h]
  rfl

/-- Witness for C2: the amended theorem at the concrete exhausted cluster
`[3, 9]` with the free-slot cluster `[4]` still pending. -/
theorem C2_amended_witness :
    clusterLoop inpC2 [[3, 9], [4]] [0, 2] (mkFull 4 3 (-1)) (mkFull 4 3 0)
      = some ([0, 2], mkFull 4 3 (-1), mkFull 4 3 0) :=
  C2_amended inpC2 [3, 9] [[4]] [0, 2] (mkFull 4 3 (-1)) (mkFull 4 3 0) (by decide)

/-! ### Array-update lemmas -/

theorem length_setIdx {α : Type} (l : List α) (i : ℕ) (v : α) :
    (setIdx l i v).length = l.length := by
  induction l generalizing i with
  | nil => rfl
  | cons x xs ih =>
    cases i with
    | zero => rfl
    | succ i => simpa [setIdx] using ih i

theorem getD_setIdx (l : List Int) (i : ℕ) (v : Int) (j : ℕ) (d : Int) :
    (setIdx l i v).getD j d = if j = i ∧ i < l.length then v else l.getD j d := by
  induction l generalizing i j with
  | nil => simp [setIdx]
  | cons x xs ih =>
    cases i with
    | zero =>
      cases j with
      | zero => simp [setIdx]
      | succ j => simp [setIdx]
    | succ i =>
      cases j with
      | zero => simp [setIdx]
      | succ j =>
        simp only [setIdx, List.getD_cons_succ, List.length_cons, ih i j]
        by_cases h : j = i ∧ i < xs.length
        · rw [if_pos h, if_pos ⟨by omega, by omega⟩]
        · rw [if_neg h, if_neg (by omega)]

theorem length_set2 (m : List (List Int)) (r c : ℕ) (v : Int) :
    (set2 m r c v).length = m.length := by
  induction m generalizing r with
  | nil => rfl
  | cons row rows ih =>
    cases r with
    | zero => rfl
    | succ r => simpa [set2] using ih r

theorem rowlen_set2 (m : List (List Int)) (r c : ℕ) (v : Int) (s : ℕ) :
    ((set2 m r c v).getD s []).length = (m.getD s []).length := by
  induction m generalizing r s with
  | nil => rfl
  | cons row rows ih =>
    cases r with
    | zero =>
      cases s with
      | zero => simpa [set2] using length_setIdx row c v
      | succ s => rfl
    | succ r =>
      cases s with
      | zero => rfl
      | succ s => simpa [set2] using ih r s

theorem get2_cons_succ (x : List Int) (xs : List (List Int)) (s t : ℕ) (d : Int) :
    get2 (x :: xs) (s + 1) t d = get2 xs s t d := rfl

theorem get2_cons_zero (x : List Int) (xs : List (List Int)) (t : ℕ) (d : Int) :
    get2 (x :: xs) 0 t d = x.getD t d := rfl

theorem get2_set2 (m : List (List Int)) (r c : ℕ) (v : Int) (s t : ℕ) (d : Int) :
    get2 (set2 m r c v) s t d =
      if s = r ∧ t = c ∧ r < m.length ∧ c < (m.getD r []).length then v
      else get2 m s t d := by
  induction m generalizing r s with
  | nil =>
    rw [if_neg (by intro h; exact absurd h.2.2.1 (Nat.not_lt_zero r))]
    rfl
  | cons row rows ih =>
    cases r with
    | zero =>
      cases s with
      | zero =>
        show (setIdx row c v).getD t d = _
        rw [getD_setIdx]
        by_cases h : t = c ∧ c < row.length
        · rw [if_pos h, if_pos ⟨rfl, h.1, Nat.succ_pos _, h.2⟩]
        · rw [if_neg h,
            if_neg (fun hc => h ⟨hc.2.1, by simpa using hc.2.2.2⟩)]
          rfl
      | succ s =>
        show get2 rows s t d = _
        rw [if_neg (fun hc => Nat.succ_ne_zero s hc.1)]
        rfl
    | succ r =>
      cases s with
      | zero =>
        show row.getD t d = _
        rw [if_neg (fun hc => Nat.succ_ne_zero r hc.1.symm)]
        rfl
      | succ s =>
        show get2 (set2 rows r c v) s t d = _
        rw [ih r s]
        by_cases h : s = r ∧ t = c ∧ r < rows.length ∧ c < (rows.getD r []).length
        · rw [if_pos h, if_pos ⟨by rw [h.1], h.2.1, Nat.succ_lt_succ h.2.2.1,
            by simpa using h.2.2.2⟩]
        · rw [if_neg h, if_neg (fun hc => h ⟨Nat.succ_injective hc.1, hc.2.1,
            Nat.lt_of_succ_lt_succ hc.2.2.1, by simpa using hc.2.2.2⟩)]
          rfl

/-! ### C4 (amended): which entries do get signal DEGENERATE -/

theorem length_degStep (bands : List (List Int)) (nks mb : ℕ) (sig : List (List Int))
    (p : ℕ × ℕ) : (degStep bands nks mb sig p).length = sig.length := by
  unfold degStep
  rw [length_set2, length_set2]

theorem rowlen_degStep (bands : List (List Int)) (nks mb : ℕ) (sig : List (List Int))
    (p : ℕ × ℕ) (s : ℕ) :
    ((degStep bands nks mb sig p).getD s []).length = ((sig.getD s []).length) := by
  unfold degStep
  rw [rowlen_set2, rowlen_set2]

theorem length_degLoop (bands : List (List Int)) (nks mb : ℕ) :
    ∀ (ps : List (ℕ × ℕ)) (sig : List (List Int)),
      (degeneradosLoop bands nks mb ps sig).length = sig.length := by
  intro ps
  induction ps with
  | nil => intro sig; rfl
  | cons p ps ih =>
    intro sig
    rw [degeneradosLoop, ih, length_degStep]

theorem rowlen_degLoop (bands : List (List Int)) (nks mb : ℕ) :
    ∀ (ps : List (ℕ × ℕ)) (sig : List (List Int)) (s : ℕ),
      ((degeneradosLoop bands nks mb ps sig).getD s []).length = (sig.getD s []).length := by
  intro ps
  induction ps with
  | nil => intro sig s; rfl
  | cons p ps ih =>
    intro sig s
    rw [degeneradosLoop, ih, rowlen_degStep]

/-- Any later write of the loop writes the literal DEGENERATE, so a position
already at DEGENERATE stays there. -/
theorem get2_set2_keep (m : List (List Int)) (r c : ℕ) (s t : ℕ)
    (h : get2 m s t 0 = DEGENERATE) :
    get2 (set2 m r c DEGENERATE) s t 0 = DEGENERATE := by
  rw [get2_set2]
  by_cases hc : s = r ∧ t = c ∧ r < m.length ∧ c < (m.getD r []).length
  · rw [if_pos hc]
  · rw [if_neg hc]; exact h

theorem degLoop_keeps (bands : List (List Int)) (nks mb : ℕ) :
    ∀ (ps : List (ℕ × ℕ)) (sig : List (List Int)) (s t : ℕ),
      get2 sig s t 0 = DEGENERATE →
      get2 (degeneradosLoop bands nks mb ps sig) s t 0 = DEGENERATE := by
  intro ps
  induction ps with
  | nil => intro sig s t h; exact h
  | cons p ps ih =>
    intro sig s t h
    exact ih _ s t (get2_set2_keep _ _ _ _ _ (get2_set2_keep _ _ _ _ _ h))

theorem degStep_sets (bands : List (List Int)) (nks mb : ℕ) (sig : List (List Int))
    (p : ℕ × ℕ)
    (hk1 : p.1 % nks < sig.length)
    (hc1 : remapBand (bands.getD (p.1 % nks) []) (p.1 / nks + mb)
      < (sig.getD (p.1 % nks) []).length)
    (hk2 : p.2 % nks < sig.length)
    (hc2 : remapBand (bands.getD (p.2 % nks) []) (p.2 / nks + mb)
      < (sig.getD (p.2 % nks) []).length) :
    get2 (degStep bands nks mb sig p) (p.1 % nks)
        (remapBand (bands.getD (p.1 % nks) []) (p.1 / nks + mb)) 0 = DEGENERATE ∧
      get2 (degStep bands nks mb sig p) (p.2 % nks)
        (remapBand (bands.getD (p.2 % nks) []) (p.2 / nks + mb)) 0 = DEGENERATE := by
  unfold degStep
  constructor
  · apply get2_set2_keep
    rw [get2_set2, if_pos ⟨rfl, rfl, hk1, hc1⟩]
  · rw [get2_set2]
    rw [if_pos ⟨rfl, rfl, by rw [length_set2]; exact hk2, by rw [rowlen_set2]; exact hc2⟩]

theorem degLoop_mem (bands : List (List Int)) (nks mb : ℕ) :
    ∀ (ps : List (ℕ × ℕ)) (sig : List (List Int)) (p : ℕ × ℕ), p ∈ ps →
      p.1 % nks < sig.length →
      remapBand (bands.getD (p.1 % nks) []) (p.1 / nks + mb)
        < (sig.getD (p.1 % nks) []).length →
      p.2 % nks < sig.length →
      remapBand (bands.getD (p.2 % nks) []) (p.2 / nks + mb)
        < (sig.getD (p.2 % nks) []).length →
      get2 (degeneradosLoop bands nks mb ps sig) (p.1 % nks)
          (remapBand (bands.getD (p.1 % nks) []) (p.1 / nks + mb)) 0 = DEGENERATE ∧
        get2 (degeneradosLoop bands nks mb ps sig) (p.2 % nks)
          (remapBand (bands.getD (p.2 % nks) []) (p.2 / nks + mb)) 0 = DEGENERATE := by
  intro ps
  induction ps with
  | nil => intro sig p hp; exact absurd hp (List.not_mem_nil p)
  | cons q ps ih =>
    intro sig p hp hk1 hc1 hk2 hc2
    rcases List.mem_cons.mp hp with rfl | hp'
    · have h := degStep_sets bands nks mb sig p hk1 hc1 hk2 hc2
      exact ⟨degLoop_keeps bands nks mb ps _ _ _ h.1,
        degLoop_keeps bands nks mb ps _ _ _ h.2⟩
    · exact ih (degStep bands nks mb sig q) p hp'
        (by rw [length_degStep]; exact hk1)
        (by rw [rowlen_degStep]; exact hc1)
        (by rw [length_degStep]; exact hk2)
        (by rw [rowlen_degStep]; exact hc2)

/-- C4 (amended): in the emitted output, the positions that are guaranteed
signal 2 (DEGENERATE) are those of the `degenerados` pairs, at the band
columns remapped through `bands_final` (`np.argmax(bands_final[k] == bn)`);
the rows of `degenerate_final` come from the basis-rotation detection, which
never writes to `signal_final`, so their signals keep the `evaluate_result`
values (counterexample: signal 3). -/
theorem C4_amended (inp : OOInput) (res : OOResult)
    (h : obtain_output inp = some res) (p : ℕ × ℕ) (hp : p ∈ inp.degenerados)
    (hk1 : p.1 % inp.nks < res.signal_final.length)
    (hc1 : remapBand (res.bands_final.getD (p.1 % inp.nks) []) (p.1 / inp.nks + inp.min_band)
      < (res.signal_final.getD (p.1 % inp.nks) []).length)
    (hk2 : p.2 % inp.nks < res.signal_final.length)
    (hc2 : remapBand (res.bands_final.getD (p.2 % inp.nks) []) (p.2 / inp.nks + inp.min_band)
      < (res.signal_final.getD (p.2 % inp.nks) []).length) :
    get2 res.signal_final (p.1 % inp.nks)
        (remapBand (res.bands_final.getD (p.1 % inp.nks) []) (p.1 / inp.nks + inp.min_band)) 0
      = DEGENERATE ∧
      get2 res.signal_final (p.2 % inp.nks)
        (remapBand (res.bands_final.getD (p.2 % inp.nks) []) (p.2 / inp.nks + inp.min_band)) 0
      = DEGENERATE := by
  unfold obtain_output at h
  rw [Option.bind_eq_some] at h
  obtain ⟨t1, _, h⟩ := h
  rw [Option.bind_eq_some] at h
  obtain ⟨t2, _, h⟩ := h
  simp only [Option.map_eq_some'] at h
  obtain ⟨degs, _, h⟩ := h
  subst h
  have hk1' : p.1 % inp.nks
      < (degeneradosLoop t2.2.1 inp.nks inp.min_band inp.degenerados t2.2.2).length := hk1
  have hc1' : remapBand (t2.2.1.getD (p.1 % inp.nks) []) (p.1 / inp.nks + inp.min_band)
      < ((degeneradosLoop t2.2.1 inp.nks inp.min_band inp.degenerados t2.2.2).getD
        (p.1 % inp.nks) []).length := hc1
  have hk2' : p.2 % inp.nks
      < (degeneradosLoop t2.2.1 inp.nks inp.min_band inp.degenerados t2.2.2).length := hk2
  have hc2' : remapBand (t2.2.1.getD (p.2 % inp.nks) []) (p.2 / inp.nks + inp.min_band)
      < ((degeneradosLoop t2.2.1 inp.nks inp.min_band inp.degenerados t2.2.2).getD
        (p.2 % inp.nks) []).length := hc2
  rw [length_degLoop] at hk1' hk2'
  rw [rowlen_degLoop] at hc1' hc2'
  exact degLoop_mem t2.2.1 inp.nks inp.min_band inp.degenerados t2.2.2 p hp hk1' hc1' hk2' hc2'

/-- The C4 state with the degenerate node pair (0, 2) recorded: node 0 is
(k-point 0, band 0) and node 2 is (k-point 0, band 1). -/
def inpC4w : OOInput :=
  { nks := 2, total_bands := 2, min_band := 0,
    neighbors := c4_neighbors, connections := c4_connections,
    solved := [[0, 1], [2, 3]], clusters := [], degenerados := [(0, 2)],
    bands0 := mkFull 2 2 (-1), signal0 := mkFull 2 2 0 }

def resC4w : OOResult :=
  { bands_final := [[0, 1], [0, 1]], signal_final := [[2, 2], [3, 3]],
    degenerate_final := [[0, 0, 1]], final_score := [mkRat 3 5, mkRat 3 5] }

/-- Witness for C4: the amended theorem at the concrete pair (0, 2) — both
remapped positions of k-point 0 carry signal 2 in the emitted output. -/
theorem C4_amended_witness :
    get2 resC4w.signal_final (0 % inpC4w.nks)
        (remapBand (resC4w.bands_final.getD (0 % inpC4w.nks) []) (0 / inpC4w.nks + inpC4w.min_band)) 0
      = DEGENERATE ∧
      get2 resC4w.signal_final (2 % inpC4w.nks)
        (remapBand (resC4w.bands_final.getD (2 % inpC4w.nks) []) (2 / inpC4w.nks + inpC4w.min_band)) 0
      = DEGENERATE :=
  C4_amended inpC4w resC4w (by decide) (0, 2) (by decide)
    (by decide) (by decide) (by decide) (by decide)

/-! ### C6: range invariant of `bands_final`

`bands_final` is created as `np.full((nks, total_bands), -1)` at
clustering_libs.py line 409 and written only at lines 725 and 752, always
with `k_bands + min_band` where `k_bands = nodes // nks` and every node is
below `width * nks` (`width` = the band-window width `self.nbnd` after
`make_vectors`). -/

/-- Line 409: `self.bands_final = np.full((self.nks, self.total_bands), -1)`. -/
def make_vectors_bands_final (nks total_bands : ℕ) : List (List Int) :=
  mkFull nks total_bands (-1)

/-- Every entry read from the array is `-1` or an original band index in
`[min_band, max_band]` (out-of-range reads return the default `-1`). -/
def bandsInv (min_band max_band : ℕ) (m : List (List Int)) : Prop :=
  ∀ r c : ℕ, get2 m r c (-1) = -1 ∨
    ((min_band : Int) ≤ get2 m r c (-1) ∧ get2 m r c (-1) ≤ (max_band : Int))

theorem getD_replicate {α : Type} (n : ℕ) (x : α) (i : ℕ) (d : α) :
    (List.replicate n x).getD i d = if i < n then x else d := by
  induction n generalizing i with
  | zero => rw [if_neg (Nat.not_lt_zero i)]; rfl
  | succ n ih =>
    cases i with
    | zero => rw [if_pos (Nat.succ_pos n)]; rfl
    | succ i =>
      show (List.replicate n x).getD i d = _
      rw [ih i]
      by_cases h : i < n
      · rw [if_pos h, if_pos (Nat.succ_lt_succ h)]
      · rw [if_neg h, if_neg (fun hc => h (Nat.lt_of_succ_lt_succ hc))]

theorem get2_mkFull (a b : ℕ) (v : Int) (r c : ℕ) : get2 (mkFull a b v) r c v = v := by
  unfold mkFull get2
  rw [getD_replicate]
  by_cases h : r < a
  · rw [if_pos h, getD_replicate]
    by_cases h2 : c < b
    · rw [if_pos h2]
    · rw [if_neg h2]
  · rw [if_neg h]; rfl

theorem bandsInv_set2 (mb Mb : ℕ) (m : List (List Int)) (r c : ℕ) (v : Int)
    (hm : bandsInv mb Mb m) (hv : v = -1 ∨ ((mb : Int) ≤ v ∧ v ≤ (Mb : Int))) :
    bandsInv mb Mb (set2 m r c v) := by
  intro s t
  rw [get2_set2]
  by_cases h : s = r ∧ t = c ∧ r < m.length ∧ c < (m.getD r []).length
  · rw [if_pos h]; exact hv
  · rw [if_neg h]; exact hm s t

theorem bandsInv_writeFold (mb Mb bn : ℕ) :
    ∀ (l : List (ℕ × ℕ)) (bf : List (List Int)), bandsInv mb Mb bf →
      (∀ p ∈ l, p.2 + mb ≤ Mb) →
      bandsInv mb Mb
        (l.foldl (fun acc p => set2 acc p.1 bn ((p.2 + mb : ℕ) : Int)) bf) := by
  intro l
  induction l with
  | nil => intro bf h _; exact h
  | cons p ps ih =>
    intro bf h hb
    exact ih _ (bandsInv_set2 mb Mb bf p.1 bn _ h
        (Or.inr ⟨Int.ofNat_le.mpr (Nat.le_add_left mb p.2), Int.ofNat_le.mpr (hb p (List.mem_cons_self p ps))⟩))
      fun q hq => hb q (List.mem_cons_of_mem p hq)

theorem bandsInv_writeBands (mb Mb : ℕ) (bf : List (List Int)) (kpts kbands : List ℕ)
    (bn : ℕ) (hm : bandsInv mb Mb bf)
    (hb : ∀ p ∈ kpts.zip kbands, p.2 + mb ≤ Mb) :
    bandsInv mb Mb (writeBands bf kpts kbands bn mb) :=
  bandsInv_writeFold mb Mb bn (kpts.zip kbands) bf hm hb

theorem solvedStep_bandsInv (inp : OOInput) (w : ℕ) (hnks : 0 < inp.nks) (hw : 0 < w)
    (nodes : List ℕ) (sb : List ℕ) (bf sf : List (List Int)) (t : List ℕ × List (List Int) × List (List Int))
    (hstep : solvedStep inp nodes sb bf sf = some t)
    (hn : ∀ n ∈ nodes, n < w * inp.nks)
    (hm : bandsInv inp.min_band (inp.min_band + w - 1) bf) :
    bandsInv inp.min_band (inp.min_band + w - 1) t.2.1 := by
  unfold solvedStep at hstep
  cases hpick : solvedPick inp.min_band sb (modalBands nodes inp.nks) with
  | none => rw [hpick] at hstep; exact Option.noConfusion hstep
  | some bn =>
    rw [hpick] at hstep
    have ht := Option.some.inj hstep
    have hbf : t.2.1 = writeBands bf (compKpoints nodes inp.nks) (compKbands nodes inp.nks)
        bn inp.min_band := by rw [← ht]
    rw [hbf]
    apply bandsInv_writeBands _ _ _ _ _ _ hm
    intro p hp
    have hmem := (List.mem_zip hp).2
    obtain ⟨n, hn2, hpn⟩ := List.mem_map.mp hmem
    have : n / inp.nks < w := (Nat.div_lt_iff_lt_mul hnks).mpr (hn n hn2)
    omega

theorem clusterWrite_bandsInv (inp : OOInput) (w : ℕ) (hnks : 0 < inp.nks) (hw : 0 < w)
    (nodes : List ℕ) (bn : ℕ) (bf sf : List (List Int))
    (hn : ∀ n ∈ nodes, n < w * inp.nks)
    (hm : bandsInv inp.min_band (inp.min_band + w - 1) bf) :
    bandsInv inp.min_band (inp.min_band + w - 1) (clusterWrite inp nodes bn bf sf).1 := by
  unfold clusterWrite
  apply bandsInv_writeBands _ _ _ _ _ _ hm
  intro p hp
  have hmem := (List.mem_zip hp).2
  obtain ⟨n, hn2, hpn⟩ := List.mem_map.mp hmem
  have : n / inp.nks < w := (Nat.div_lt_iff_lt_mul hnks).mpr (hn n hn2)
  omega

theorem solvedLoop_bandsInv (inp : OOInput) (w : ℕ) (hnks : 0 < inp.nks) (hw : 0 < w) :
    ∀ (comps : List (List ℕ)) (sb : List ℕ) (bf sf : List (List Int))
      (out : List ℕ × List (List Int) × List (List Int)),
      solvedLoop inp comps sb bf sf = some out →
      (∀ nodes ∈ comps, ∀ n ∈ nodes, n < w * inp.nks) →
      bandsInv inp.min_band (inp.min_band + w - 1) bf →
      bandsInv inp.min_band (inp.min_band + w - 1) out.2.1 := by
  intro comps
  induction comps with
  | nil =>
    intro sb bf sf out h _ hm
    rw [← Option.some.inj h]
    exact hm
  | cons nodes rest ih =>
    intro sb bf sf out h hc hm
    rw [solvedLoop, Option.bind_eq_some] at h
    obtain ⟨t, hstep, hrec⟩ := h
    exact ih t.1 t.2.1 t.2.2 out hrec
      (fun ns hns => hc ns (List.mem_cons_of_mem _ hns))
      (solvedStep_bandsInv inp w hnks hw nodes sb bf sf t hstep
        (hc nodes (List.mem_cons_self _ _)) hm)

theorem clusterLoop_bandsInv (inp : OOInput) (w : ℕ) (hnks : 0 < inp.nks) (hw : 0 < w) :
    ∀ (comps : List (List ℕ)) (sb : List ℕ) (bf sf : List (List Int))
      (out : List ℕ × List (List Int) × List (List Int)),
      clusterLoop inp comps sb bf sf = some out →
      (∀ nodes ∈ comps, ∀ n ∈ nodes, n < w * inp.nks) →
      bandsInv inp.min_band (inp.min_band + w - 1) bf →
      bandsInv inp.min_band (inp.min_band + w - 1) out.2.1 := by
  intro comps
  induction comps with
  | nil =>
    intro sb bf sf out h _ hm
    rw [← Option.some.inj h]
    exact hm
  | cons nodes rest ih =>
    intro sb bf sf out h hc hm
    rw [clusterLoop, Option.bind_eq_some] at h
    obtain ⟨ob, hpick, h⟩ := h
    cases ob with
    | none =>
      rw [← Option.some.inj h]
      exact hm
    | some bn =>
      exact ih _ _ _ out h (fun ns hns => hc ns (List.mem_cons_of_mem _ hns))
        (clusterWrite_bandsInv inp w hnks hw nodes bn bf sf
          (hc nodes (List.mem_cons_self _ _)) hm)

/-- Elements of `orderClusters clusters` are clusters (or the junk `[]` for
an out-of-range argsort index, which carries no nodes). -/
theorem orderClusters_mem (clusters : List (List ℕ)) (nodes : List ℕ)
    (h : nodes ∈ orderClusters clusters) : nodes ∈ clusters ∨ nodes = [] := by
  unfold orderClusters at h
  obtain ⟨i, _, hi⟩ := List.mem_map.mp h
  cases hg : clusters.get? i with
  | none =>
    right
    rw [← hi, List.getD_eq_get?, hg]
    rfl
  | some x =>
    left
    rw [← hi, List.getD_eq_get?, hg]
    exact List.get?_mem hg

/-- C6: the `bands_final` array starts all `-1` at initialization
(`make_vectors`, line 409), and in the emitted output every entry is either
`-1` or an original band index in the closed window
`[min_band, min_band + w - 1]`, where `w` is the band-window width and every
component node id is below `w * nks`. -/
theorem C6_bands_final_range (inp : OOInput) (res : OOResult) (w : ℕ)
    (hnks : 0 < inp.nks) (hw : 0 < w)
    (hnodes : ∀ nodes ∈ inp.solved ++ inp.clusters, ∀ n ∈ nodes, n < w * inp.nks)
    (hinit : bandsInv inp.min_band (inp.min_band + w - 1) inp.bands0)
    (h : obtain_output inp = some res) :
    (∀ r c : ℕ, get2 (make_vectors_bands_final inp.nks inp.total_bands) r c (-1) = -1) ∧
      bandsInv inp.min_band (inp.min_band + w - 1) res.bands_final := by
  constructor
  · intro r c
    exact get2_mkFull _ _ _ r c
  · unfold obtain_output at h
    rw [Option.bind_eq_some] at h
    obtain ⟨t1, h1, h⟩ := h
    rw [Option.bind_eq_some] at h
    obtain ⟨t2, h2, h⟩ := h
    simp only [Option.map_eq_some'] at h
    obtain ⟨degs, _, h⟩ := h
    subst h
    show bandsInv _ _ t2.2.1
    have hbf1 := solvedLoop_bandsInv inp w hnks hw inp.solved [] inp.bands0 inp.signal0 t1 h1
      (fun ns hns => hnodes ns (List.mem_append_left _ hns)) hinit
    apply clusterLoop_bandsInv inp w hnks hw (orderClusters inp.clusters)
      t1.1 t1.2.1 t1.2.2 t2 h2 ?_ hbf1
    intro ns hns n hn
    rcases orderClusters_mem inp.clusters ns hns with hmem | rfl
    · exact hnodes ns (List.mem_append_right _ hmem) n hn
    · exact absurd hn (List.not_mem_nil n)

/-- Witness for C6: at the concrete C4 state (window width 2), the freshly
initialized array reads -1 and the emitted `bands_final[0, 0]` is in range. -/
theorem C6_bands_final_range_witness :
    get2 (make_vectors_bands_final inpC4.nks inpC4.total_bands) 0 0 (-1) = -1 ∧
      (get2 resC4.bands_final 0 0 (-1) = -1 ∨
        ((inpC4.min_band : Int) ≤ get2 resC4.bands_final 0 0 (-1) ∧
          get2 resC4.bands_final 0 0 (-1) ≤ ((inpC4.min_band + 2 - 1 : ℕ) : Int))) := by
  have h := C6_bands_final_range inpC4 resC4 2 (by decide) (by decide) (by decide)
    (fun r c => Or.inl (get2_mkFull 2 2 (-1) r c)) (by decide)
  exact ⟨h.1 0 0, h.2 0 0⟩

/-! ### `MATERIAL.make_connections` (clustering_libs.py lines 452-506)

Edge enumeration of `connection_component`: for each node
`i_ = b1*nks + k1` (with `min_band = 0`, the run_clustering default, node
offsets and original bands coincide), each window band `b2` and each of the
4 neighbor slots, the candidate `j_ = neighbors[k1][dir] + b2*nks` produces
an edge when `connections[k1, np.where(neighbors[k1] == k2)[0], b1, b2]`
exceeds `tol`.  The graph is undirected (`networkx.Graph`), so an edge is
present when either enumeration direction produced it. -/

/-- `np.where(neighbors[k1] == k2)[0]` (first match; the neighbor rows of a
grid are duplicate-free, which the theorem assumes). -/
def firstDir (row : ℕ → Int) (target : Int) : ℕ :=
  if row 0 = target then 0
  else if row 1 = target then 1
  else if row 2 = target then 2
  else 3

/-- One candidate edge of the enumeration. -/
def edgeCand (nks mb : ℕ) (neighbors : ℕ → ℕ → Int)
    (connections : ℕ → ℕ → ℕ → ℕ → ℚ) (tol : ℚ) (i_ b2 dir : ℕ) : Option (ℕ × ℕ) :=
  let k1 := i_ % nks
  let bn1 := i_ / nks + mb
  let kn := neighbors k1 dir
  if kn = -1 then none
  else
    let j_ := kn.toNat + b2 * nks
    let bn2 := j_ / nks + mb
    let i_neig := firstDir (neighbors k1) ((j_ % nks : ℕ) : Int)
    if tol < connections k1 i_neig bn1 bn2 then some (i_, j_) else none

/-- The edge list built by `connection_component` over all nodes. -/
def connection_edges (nvec nks mb MB : ℕ) (neighbors : ℕ → ℕ → Int)
    (connections : ℕ → ℕ → ℕ → ℕ → ℚ) (tol : ℚ) : List (ℕ × ℕ) :=
  (List.range nvec).flatMap fun i_ =>
    (List.range' mb (MB + 1 - mb)).flatMap fun b2 =>
      (List.range 4).filterMap fun dir => edgeCand nks mb neighbors connections tol i_ b2 dir

/-- Undirected edge test of the resulting `networkx` graph. -/
def hasEdge (E : List (ℕ × ℕ)) (a b : ℕ) : Bool :=
  E.any fun e => (e.1 == a && e.2 == b) || (e.1 == b && e.2 == a)

theorem hasEdge_symm (E : List (ℕ × ℕ)) (a b : ℕ) : hasEdge E a b = hasEdge E b a := by
  unfold hasEdge
  congr 1
  funext e
  exact Bool.or_comm _ _

theorem mem_connection_edges (nvec nks mb MB : ℕ) (neighbors : ℕ → ℕ → Int)
    (connections : ℕ → ℕ → ℕ → ℕ → ℚ) (tol : ℚ) (e : ℕ × ℕ) :
    e ∈ connection_edges nvec nks mb MB neighbors connections tol ↔
      ∃ i_, i_ < nvec ∧ ∃ b2, mb ≤ b2 ∧ b2 < mb + (MB + 1 - mb) ∧ ∃ dir, dir < 4 ∧
        edgeCand nks mb neighbors connections tol i_ b2 dir = some e := by
  unfold connection_edges
  simp only [List.mem_flatMap, List.mem_filterMap, List.mem_range, List.mem_range'_1]
  constructor
  · rintro ⟨i_, hi, b2, ⟨hb1, hb2⟩, dir, hdir, he⟩
    exact ⟨i_, hi, b2, hb1, hb2, dir, hdir, he⟩
  · rintro ⟨i_, hi, b2, hb1, hb2, dir, hdir, he⟩
    exact ⟨i_, hi, b2, ⟨hb1, hb2⟩, dir, hdir, he⟩

theorem edgeCand_eq_some (nks mb : ℕ) (neighbors : ℕ → ℕ → Int)
    (connections : ℕ → ℕ → ℕ → ℕ → ℚ) (tol : ℚ) (i_ b2 dir : ℕ) (e : ℕ × ℕ) :
    edgeCand nks mb neighbors connections tol i_ b2 dir = some e ↔
      neighbors (i_ % nks) dir ≠ -1 ∧
        tol < connections (i_ % nks)
          (firstDir (neighbors (i_ % nks))
            ((((neighbors (i_ % nks) dir).toNat + b2 * nks) % nks : ℕ) : Int))
          (i_ / nks + mb) (((neighbors (i_ % nks) dir).toNat + b2 * nks) / nks + mb) ∧
        e = (i_, (neighbors (i_ % nks) dir).toNat + b2 * nks) := by
  unfold edgeCand
  by_cases h1 : neighbors (i_ % nks) dir = -1
  · rw [if_pos h1]
    simp [h1]
  · rw [if_neg h1]
    by_cases h2 : tol < connections (i_ % nks)
        (firstDir (neighbors (i_ % nks))
          ((((neighbors (i_ % nks) dir).toNat + b2 * nks) % nks : ℕ) : Int))
        (i_ / nks + mb) (((neighbors (i_ % nks) dir).toNat + b2 * nks) / nks + mb)
    · rw [if_pos h2]
      constructor
      · intro h; exact ⟨h1, h2, (Option.some.inj h).symm⟩
      · intro h; rw [h.2.2]
    · rw [if_neg h2]
      constructor
      · intro h; exact Option.noConfusion h
      · intro h; exact absurd h.2.1 h2

/-- On a duplicate-free neighbor row, `np.where` recovers the enumerated
direction. -/
theorem firstDir_eq (row : ℕ → Int) (d : ℕ) (hd : d < 4) (hne : row d ≠ -1)
    (hinj : ∀ a b, a < 4 → b < 4 → row a ≠ -1 → row a = row b → a = b) :
    firstDir row (row d) = d := by
  unfold firstDir
  by_cases h0 : row 0 = row d
  · rw [if_pos h0]
    exact hinj 0 d (by omega) hd (h0 ▸ hne) h0
  · rw [if_neg h0]
    by_cases h1 : row 1 = row d
    · rw [if_pos h1]
      exact hinj 1 d (by omega) hd (h1 ▸ hne) h1
    · rw [if_neg h1]
      by_cases h2 : row 2 = row d
      · rw [if_pos h2]
        exact hinj 2 d (by omega) hd (h2 ▸ hne) h2
      · rw [if_neg h2]
        have : d ≠ 0 := fun h => h0 (by rw [h])
        have : d ≠ 1 := fun h => h1 (by rw [h])
        have : d ≠ 2 := fun h => h2 (by rw [h])
        omega

/-- C7: with the default `min_band = 0`, over a grid neighbor table (rows
duplicate-free, mutual, entries `-1` or valid k-ids) and symmetric overlap
magnitudes, the graph built by `make_connections` (before degeneracy repair)
has an edge between `n1 = (k1, b1)` and `n2 = (k2, b2)` **iff** `k2` is one
of the 4 cardinal neighbors of `k1` and `C[k1, dir(k1→k2), b1, b2] > tol`;
and the edge set is symmetric. -/
theorem C7_make_connections_edges (nks w : ℕ) (neighbors : ℕ → ℕ → Int)
    (connections : ℕ → ℕ → ℕ → ℕ → ℚ) (tol : ℚ) (n1 n2 : ℕ)
    (hnks : 0 < nks) (hn1 : n1 < w * nks) (hn2 : n2 < w * nks)
    (hrange : ∀ k d : ℕ, neighbors k d = -1 ∨
      (0 ≤ neighbors k d ∧ neighbors k d < (nks : Int)))
    (hinj : ∀ k : ℕ, k < nks → ∀ a : ℕ, a < 4 → ∀ b : ℕ, b < 4 → neighbors k a ≠ -1 →
      neighbors k a = neighbors k b → a = b)
    (hmut : ∀ k : ℕ, k < nks → ∀ d : ℕ, d < 4 → ∀ k2 : ℕ, k2 < nks →
      neighbors k d = (k2 : Int) → ∃ d2, d2 < 4 ∧ neighbors k2 d2 = (k : Int))
    (hsym : ∀ k d k2 d2 b b2 : ℕ, neighbors k d = (k2 : Int) →
      neighbors k2 d2 = (k : Int) → connections k d b b2 = connections k2 d2 b2 b) :
    (hasEdge (connection_edges (w * nks) nks 0 (w - 1) neighbors connections tol) n1 n2
        = true ↔
      ∃ d, d < 4 ∧ neighbors (n1 % nks) d = ((n2 % nks : ℕ) : Int) ∧
        tol < connections (n1 % nks) d (n1 / nks) (n2 / nks)) ∧
      ∀ a b : ℕ,
        hasEdge (connection_edges (w * nks) nks 0 (w - 1) neighbors connections tol) a b
          = hasEdge (connection_edges (w * nks) nks 0 (w - 1) neighbors connections tol) b a := by
  have hw : 0 < w := by
    rcases Nat.eq_zero_or_pos w with rfl | hw
    · rw [Nat.zero_mul] at hn1; exact absurd hn1 (Nat.not_lt_zero n1)
    · exact hw
  refine ⟨?_, fun a b => hasEdge_symm _ a b⟩
  constructor
  · intro h
    rw [hasEdge, List.any_eq_true] at h
    obtain ⟨e, heE, hpe⟩ := h
    rw [mem_connection_edges] at heE
    obtain ⟨i_, hi, b2, hb0, hbw, dir, hdir, hcand⟩ := heE
    rw [edgeCand_eq_some] at hcand
    obtain ⟨hne, hlt, he⟩ := hcand
    rcases hrange (i_ % nks) dir with hbad | ⟨hge, hltk⟩
    · exact absurd hbad hne
    have hknn : ((neighbors (i_ % nks) dir).toNat : Int) = neighbors (i_ % nks) dir :=
      Int.toNat_of_nonneg hge
    have hkn_lt : (neighbors (i_ % nks) dir).toNat < nks := by omega
    have hmod : ((neighbors (i_ % nks) dir).toNat + b2 * nks) % nks
        = (neighbors (i_ % nks) dir).toNat := by
      rw [Nat.add_mul_mod_self_right]
      exact Nat.mod_eq_of_lt hkn_lt
    have hdiv : ((neighbors (i_ % nks) dir).toNat + b2 * nks) / nks = b2 := by
      rw [Nat.add_mul_div_right _ _ hnks, Nat.div_eq_of_lt hkn_lt, Nat.zero_add]
    rw [he] at hpe
    simp only [Bool.or_eq_true, Bool.and_eq_true, beq_iff_eq] at hpe
    have hinj1 := fun (k : ℕ) (hk : k < nks) (a b : ℕ) (ha : a < 4) (hb : b < 4) =>
      hinj k hk a ha b hb
    rcases hpe with ⟨h1, h2⟩ | ⟨h1, h2⟩
    · -- the edge was enumerated from n1 itself
      rw [← h1, ← h2]
      rw [hmod, hknn] at hlt
      rw [firstDir_eq (neighbors (i_ % nks)) dir hdir hne
        (hinj1 (i_ % nks) (Nat.mod_lt i_ hnks))] at hlt
      refine ⟨dir, hdir, ?_, ?_⟩
      · rw [hmod, hknn]
      · simpa using hlt
    · -- the edge was enumerated from n2: transport along mutuality/symmetry
      rw [← h1, ← h2]
      rw [hmod, hknn] at hlt
      rw [firstDir_eq (neighbors (i_ % nks)) dir hdir hne
        (hinj1 (i_ % nks) (Nat.mod_lt i_ hnks))] at hlt
      have hkval : neighbors (i_ % nks) dir
          = ((((neighbors (i_ % nks) dir).toNat + b2 * nks) % nks : ℕ) : Int) := by
        rw [hmod, hknn]
      have hmodlt : ((neighbors (i_ % nks) dir).toNat + b2 * nks) % nks < nks :=
        Nat.mod_lt _ hnks
      obtain ⟨d2, hd2, hnb2⟩ := hmut (i_ % nks) (Nat.mod_lt i_ hnks) dir hdir
        (((neighbors (i_ % nks) dir).toNat + b2 * nks) % nks) hmodlt hkval
      refine ⟨d2, hd2, hnb2, ?_⟩
      rw [hsym (((neighbors (i_ % nks) dir).toNat + b2 * nks) % nks) d2 (i_ % nks) dir
        ((((neighbors (i_ % nks) dir).toNat + b2 * nks) / nks)) (i_ / nks) hnb2 hkval]
      simpa using hlt
  · rintro ⟨d, hd, hnb, hlt⟩
    rw [hasEdge, List.any_eq_true]
    refine ⟨(n1, n2), ?_, by simp⟩
    rw [mem_connection_edges]
    refine ⟨n1, hn1, n2 / nks, Nat.zero_le _, ?_, d, hd, ?_⟩
    · have : n2 / nks < w := (Nat.div_lt_iff_lt_mul hnks).mpr hn2
      omega
    · rw [edgeCand_eq_some]
      have hne : neighbors (n1 % nks) d ≠ -1 := by
        rw [hnb]
        omega
      have htn : (neighbors (n1 % nks) d).toNat = n2 % nks := by
        rw [hnb]
        exact Int.toNat_natCast _
      refine ⟨hne, ?_, ?_⟩
      · rw [htn, Nat.mod_add_div', ← hnb,
          firstDir_eq (neighbors (n1 % nks)) d hd hne
            (fun a b ha hb => hinj (n1 % nks) (Nat.mod_lt n1 hnks) a ha b hb)]
        simpa using hlt
      · rw [htn, Nat.mod_add_div']

/-- Concrete 1×2 grid for the C7 witness. -/
def c7_neighbors (k d : ℕ) : Int :=
  if k = 0 ∧ d = 1 then 1 else if k = 1 ∧ d = 3 then 0 else -1

def c7_connections (_k _d _b1 _b2 : ℕ) : ℚ := mkRat 24 25

/-- Witness for C7: on the concrete 1×2 grid with symmetric overlaps 0.96
and tol 0.95, the theorem yields the edge between nodes 0 and 1. -/
theorem C7_make_connections_edges_witness :
    hasEdge (connection_edges (1 * 2) 2 0 (1 - 1) c7_neighbors c7_connections (mkRat 19 20))
      0 1 = true := by
  have h := C7_make_connections_edges 2 1 c7_neighbors c7_connections (mkRat 19 20) 0 1
    (by decide) (by decide) (by decide)
    (by
      intro k d
      unfold c7_neighbors
      split_ifs <;> omega)
    (by decide)
    (by decide)
    (fun k d k2 d2 b b2 _ _ => rfl)
  exact h.1.mpr ⟨1, by decide, by decide, by decide⟩

end Berry
